import Mathlib

/-!
Shallow embedding of `src/dyn_mem/dyn_mem.c` (first-fit, coalescing dynamic
memory allocator).  We model an ILP32 target: `size_t` is 32 bits,
`sizeof(mem_block_t) = 8` (one 4-byte pointer plus one 4-byte `size_t`),
`MEM_ALIGN_NUM = 4`, hence `MEM_BLOCK_META_SIZE = 8` and the allocated-tag
bit is `2^31`, matching the constants (`A = 4`, `H = 8`) used throughout the
specification's scenarios.

Pointers are modelled as `Option Nat` (`none` = `NULL`, `some a` = the byte
address `a`); the byte memory that holds block headers is modelled as a
total function from addresses to header records, written only at the
addresses the C code writes.  The static sentinel `start_block` lives
outside every managed region, so it is kept in a separate state field
rather than at an address of the heap function.
-/

/-- Number of bits in `size_t` on the modelled (ILP32) target. -/
def wordBits : Nat := 32

/-- `MEM_ALIGN_NUM`: alignment granularity `A`. -/
def MEM_ALIGN_NUM : Nat := 4

/-- `MEM_ALIGN(x) = (x + 3) & ~3` in 32-bit arithmetic: round `x` up to a
multiple of 4 (the `& ~3` clears the two low bits, i.e. rounds down to a
multiple of 4; the sum is taken modulo `2^32` as `size_t` wraps). -/
def MEM_ALIGN (x : Nat) : Nat := ((x + 3) % 2 ^ 32) &&& 0xFFFFFFFC

/-- `MEM_BLOCK_META_SIZE = MEM_ALIGN(sizeof(mem_block_t))`, with
`sizeof(mem_block_t) = 8` on the modelled target: the aligned header size
`H`. -/
def MEM_BLOCK_META_SIZE : Nat := MEM_ALIGN 8

/-- The allocated-tag mask `(size_t)1 << (sizeof(size_t)*CHAR_BIT - 1)`. -/
def ALLOC_BIT : Nat := 2 ^ 31

/-- `mem_block_t`: the two-field block header.  `next` is the next-free
link (`none` = `NULL`), `size` is the raw size field (its MSB is the
allocated tag). -/
structure mem_block_t where
  next : Option Nat
  size : Nat
deriving DecidableEq, Repr

/-- `mem_region_t`: a caller-supplied region descriptor. -/
structure mem_region_t where
  start_addr : Nat
  size : Nat
deriving DecidableEq, Repr

/-- The allocator's global state: `start_block` (only its `next` matters,
its `size` is always 0), `end_block`, `mem_alloc_bit`,
`mem_available_bytes`, `mem_regions_count`, and the headers stored inside
the managed regions. -/
structure Mem where
  startNext : Option Nat
  end_block : Option Nat
  mem_alloc_bit : Nat
  mem_available_bytes : Nat
  mem_regions_count : Nat
  heap : Nat → mem_block_t

/-- Write the header at address `a`. -/
def hupd (h : Nat → mem_block_t) (a : Nat) (v : mem_block_t) : Nat → mem_block_t :=
  fun x => if x = a then v else h x

/-- Read `curr->next` where `curr` is either `&start_block` (`none`) or a
real header address (`some a`). -/
def readNextPtr (s : Mem) : Option Nat → Option Nat
  | none => s.startNext
  | some a => (s.heap a).next

/-- `MEM_ALIGN_BITS = MEM_ALIGN_NUM - 1`. -/
def MEM_ALIGN_BITS : Nat := MEM_ALIGN_NUM - 1

/-- C pointer comparison `p < nb` where `p` may be `NULL` (address 0). -/
def ptrLtB (p : Option Nat) (nb : Nat) : Bool :=
  match p with
  | none => 0 < nb
  | some a => a < nb

/-- The search loop of `insert_free_block`:
`for (curr = &start_block; curr != NULL && curr->next < nb; curr = curr->next) {}`.
`curr` is `none` for `&start_block`.  Returns `none` when the walk steps
through a `NULL` link (the C code would then dereference `NULL`, which is
undefined behaviour; under the free-list invariant this never happens
because the walk stops at the final sentinel, whose address is above every
inserted block) or when fuel runs out (the C loop terminates because the
list is finite and `NULL`-terminated; theorems supply fuel of at least the
list length). -/
def ifb_walk (s : Mem) (nb : Nat) : Option Nat → Nat → Option (Option Nat)
  | _, 0 => none
  | curr, fuel + 1 =>
    if ptrLtB (readNextPtr s curr) nb then
      match readNextPtr s curr with
      | some nxt => ifb_walk s nb (some nxt) fuel
      | none => none
    else some curr

/-- The second adjacency test of `insert_free_block` and the write of
`nb->next`: `if ((uint8_t*)nb + nb->size == (uint8_t*)curr->next) ... else
nb->next = curr->next;`.  Here `nb` is the block after any left merge (it
equals `curr` when a left merge happened). -/
def ifb_phase2 (s : Mem) (curr : Option Nat) (nb : Nat) : Mem :=
  let cnext := readNextPtr s curr
  if cnext = some (nb + (s.heap nb).size) then
    if cnext = s.end_block then
      { s with heap := hupd s.heap nb ⟨s.end_block, (s.heap nb).size⟩ }
    else
      let r := nb + (s.heap nb).size
      { s with heap := hupd s.heap nb ⟨(s.heap r).next, (s.heap nb).size + (s.heap r).size⟩ }
  else
    { s with heap := hupd s.heap nb ⟨cnext, (s.heap nb).size⟩ }

/-- The final step of `insert_free_block`:
`if (curr != nb) { curr->next = nb; }`.  `&start_block` (`curr = none`) is
never equal to a managed block address. -/
def ifb_link (s : Mem) (curr : Option Nat) (nb : Nat) : Mem :=
  match curr with
  | none => { s with startNext := some nb }
  | some c =>
    if c = nb then s
    else { s with heap := hupd s.heap c ⟨some nb, (s.heap c).size⟩ }

/-- `insert_free_block(nb)`: walk to the last free block below `nb`, merge
left if `curr + curr->size == nb` (for `curr = &start_block`, a static
object outside every managed region with `size = 0`, this address equality
never holds), then the right-adjacency phase and the final link. -/
def insert_free_block (s : Mem) (nb : Nat) (fuel : Nat) : Mem :=
  match ifb_walk s nb none fuel with
  | none => s
  | some none => ifb_link (ifb_phase2 s none nb) none nb
  | some (some c) =>
    if c + (s.heap c).size = nb then
      let s1 := { s with
        heap := hupd s.heap c ⟨(s.heap c).next, (s.heap c).size + (s.heap nb).size⟩ }
      ifb_link (ifb_phase2 s1 (some c) c) (some c) c
    else
      ifb_link (ifb_phase2 s (some c) nb) (some c) nb

/-- The first loop of `mem_init`: regions must grow linearly and must not
overlap.  The accumulators start at `mem_start_addr = 0, mem_size = 0`. -/
def regions_monotone : Nat → Nat → List mem_region_t → Bool
  | _, _, [] => true
  | pa, ps, r :: rest =>
    if pa + ps > r.start_addr then false
    else regions_monotone r.start_addr r.size rest

/-- The aligned start address `mem_init` computes for a region: the start
address rounded up to the next multiple of `MEM_ALIGN_NUM` (`mem_start_addr
+= MEM_ALIGN_NUM - ((size_t)mem_start_addr & MEM_ALIGN_BITS)` when the low
bits are set). -/
def effective_start (r : mem_region_t) : Nat :=
  r.start_addr +
    (if r.start_addr &&& MEM_ALIGN_BITS ≠ 0 then
      MEM_ALIGN_NUM - (r.start_addr &&& MEM_ALIGN_BITS)
    else 0)

/-- The effective region size `mem_init` computes: the declared size minus
the alignment waste (`mem_size -= mem_start_addr - regions->start_addr`),
then truncated down to a multiple of `MEM_ALIGN_NUM`
(`mem_size &= ~MEM_ALIGN_BITS` when the low bits are set). -/
def effective_size (r : mem_region_t) : Nat :=
  let m := r.size -
    (if r.start_addr &&& MEM_ALIGN_BITS ≠ 0 then
      MEM_ALIGN_NUM - (r.start_addr &&& MEM_ALIGN_BITS)
    else 0)
  if m &&& MEM_ALIGN_BITS ≠ 0 then m &&& 0xFFFFFFFC else m

/-- One iteration of the region-installing loop of `mem_init`. -/
def mem_init_region (s : Mem) (r : mem_region_t) : Mem :=
  -- mem_size = regions->size
  if r.size < MEM_BLOCK_META_SIZE + MEM_ALIGN_NUM then s
  else
    -- mem_start_addr and mem_size after the alignment adjustments
    let mem_start_addr := effective_start r
    let mem_size := effective_size r
    if mem_size < MEM_BLOCK_META_SIZE + MEM_ALIGN_NUM then s
    else
      let s :=
        if s.end_block = none then
          { s with startNext := some mem_start_addr }
        else s
      let prev_end_block := s.end_block
      let eb := mem_start_addr + mem_size - MEM_BLOCK_META_SIZE
      let heap := hupd s.heap eb ⟨none, 0⟩
      let heap := hupd heap mem_start_addr ⟨some eb, mem_size - MEM_BLOCK_META_SIZE⟩
      let heap :=
        match prev_end_block with
        | some pe => hupd heap pe ⟨some mem_start_addr, (heap pe).size⟩
        | none => heap
      { s with
        end_block := some eb
        heap := heap
        mem_available_bytes := s.mem_available_bytes + (mem_size - MEM_BLOCK_META_SIZE)
        mem_regions_count := s.mem_regions_count + 1 }

/-- `mem_init(regions, len)`. -/
def mem_init (s : Mem) (regions : List mem_region_t) : Nat × Mem :=
  if s.end_block ≠ none then (0, s)
  else if ¬ regions_monotone 0 0 regions then (0, s)
  else
    let s := regions.foldl mem_init_region s
    let s := { s with mem_alloc_bit := ALLOC_BIT }
    (s.mem_regions_count, s)

/-- The first-fit search loop of `mem_malloc`:
`while (curr->size < size) { if (curr->next == NULL || curr == end_block)
return NULL; prev = curr; curr = curr->next; }`.  `prev` is `none` for
`&start_block`; returns the final `(prev, curr)` pair or `none` for the
`return NULL` path.  A `NULL` `curr` would be dereferenced by the C code
(undefined behaviour, unreachable since `start_block.next` is never `NULL`
once initialized); the model returns `none` there, as it does on fuel
exhaustion (the C loop terminates because the list is finite). -/
def mwalk (s : Mem) (need : Nat) : Option Nat → Nat → Option (Option Nat × Nat)
  | _, 0 => none
  | prev, fuel + 1 =>
    match readNextPtr s prev with
    | none => none
    | some curr =>
      if (s.heap curr).size < need then
        if (s.heap curr).next = none ∨ some curr = s.end_block then none
        else mwalk s need (some curr) fuel
      else some (prev, curr)

/-- The unlink statement of `mem_malloc`: `prev->next = curr->next`, where
`prev` may be `&start_block` (`none`). -/
def munlink (s : Mem) (prev : Option Nat) (curr : Nat) : Mem :=
  match prev with
  | none => { s with startNext := (s.heap curr).next }
  | some p => { s with heap := hupd s.heap p ⟨(s.heap curr).next, (s.heap p).size⟩ }

/-- `mem_malloc(size)`.  Returns the payload pointer (or `none`) and the
resulting state. -/
def mem_malloc (s : Mem) (size : Nat) (fuel : Nat) : Option Nat × Mem :=
  if s.end_block = none ∨ size = 0 ∨ size &&& s.mem_alloc_bit ≠ 0 then (none, s)
  else
    -- size = MEM_ALIGN(size) + MEM_BLOCK_META_SIZE
    let need := MEM_ALIGN size + MEM_BLOCK_META_SIZE
    if need &&& s.mem_alloc_bit ≠ 0 then (none, s)
    else
      match mwalk s need none fuel with
      | none => (none, s)
      | some (prev, curr) =>
        -- retval = (uint8_t*)prev->next + MEM_BLOCK_META_SIZE, and prev->next
        -- is curr at this point
        let retval := curr + MEM_BLOCK_META_SIZE
        -- prev->next = curr->next (unlink curr)
        let s := munlink s prev curr
        let csize := (s.heap curr).size
        -- split when curr->size - size > 2 * MEM_BLOCK_META_SIZE; the loop
        -- exit guarantees curr->size >= size, so the size_t subtraction
        -- does not wrap and equals the Nat subtraction
        let s :=
          if csize - need > 2 * MEM_BLOCK_META_SIZE then
            -- next = curr + size; next->size = curr->size - size (next->next
            -- is uninitialized memory here and is first written inside
            -- insert_free_block; the model keeps the previous heap value)
            let nxt := curr + need
            let s := { s with heap := hupd s.heap nxt ⟨(s.heap nxt).next, csize - need⟩ }
            let s := { s with heap := hupd s.heap curr ⟨(s.heap curr).next, need⟩ }
            insert_free_block s nxt fuel
          else s
        -- curr->size |= mem_alloc_bit; curr->next = NULL
        let s := { s with heap := hupd s.heap curr ⟨none, (s.heap curr).size ||| s.mem_alloc_bit⟩ }
        (some retval, { s with mem_available_bytes := s.mem_available_bytes - need })

/-- The tail of `mem_malloc`'s success path, applied to the state after
the optional split: `curr->size |= mem_alloc_bit; curr->next = NULL;
mem_available_bytes -= size;`. -/
def mfinish (t : Mem) (need curr : Nat) : Mem :=
  let t2 := { t with heap := hupd t.heap curr ⟨none, (t.heap curr).size ||| t.mem_alloc_bit⟩ }
  { t2 with mem_available_bytes := t2.mem_available_bytes - need }

/-- `mem_calloc(nitems, size)`: the product wraps in `size_t` arithmetic;
`MEM_MEMSET` zero-fills the payload on success, and payload bytes are
outside the header model. -/
def mem_calloc (s : Mem) (nitems size : Nat) (fuel : Nat) : Option Nat × Mem :=
  mem_malloc s (nitems * size % 2 ^ 32) fuel

/-- `mem_free(ptr)`. -/
def mem_free (s : Mem) (ptr : Option Nat) (fuel : Nat) : Mem :=
  match ptr with
  | none => s
  | some p =>
    -- block = (uint8_t*)ptr - MEM_BLOCK_META_SIZE (valid payload pointers
    -- are at least MEM_BLOCK_META_SIZE, so the Nat subtraction is exact)
    let block := p - MEM_BLOCK_META_SIZE
    if (s.heap block).size &&& s.mem_alloc_bit ≠ 0 ∧ (s.heap block).next = none then
      -- block->size &= ~mem_alloc_bit (complement within 32 bits)
      let newsize := (s.heap block).size &&& (0xFFFFFFFF ^^^ s.mem_alloc_bit)
      let s := { s with
        heap := hupd s.heap block ⟨(s.heap block).next, newsize⟩
        mem_available_bytes := s.mem_available_bytes + newsize }
      insert_free_block s block fuel
    else s

/-- `mem_realloc(ptr, size)`.  The `old_size` read in the C code is used
only as the `MEM_MEMCPY` length (`min(old_size, size)` bytes are copied);
payload bytes are outside the header model. -/
def mem_realloc (s : Mem) (ptr : Option Nat) (size : Nat) (fuel : Nat) :
    Option Nat × Mem :=
  if size = 0 then
    match ptr with
    | some p => (none, mem_free s (some p) fuel)
    | none => (none, s)
  else
    match ptr with
    | none => mem_malloc s size fuel
    | some p =>
      match mem_malloc s size fuel with
      | (none, s1) => (none, s1)
      | (some np, s1) => (some np, mem_free s1 (some p) fuel)

/-! ### Free-list observation predicates -/

/-- `chainb s p l = true` iff following `next` links from the pointer `p`
visits exactly the addresses in `l` and then reaches `NULL`. -/
def chainb (s : Mem) : Option Nat → List Nat → Bool
  | p, [] => p == none
  | p, a :: l => p == some a && chainb s (s.heap a).next l

/-- `chainSeg s p l q = true` iff following `next` links from the pointer
`p` visits exactly the addresses in `l` and ends with the pointer `q`. -/
def chainSeg (s : Mem) : Option Nat → List Nat → Option Nat → Bool
  | p, [], q => p == q
  | p, a :: l, q => p == some a && chainSeg s (s.heap a).next l q

/-- Sum of the stored `size` fields of the listed blocks (sentinels store
size 0, so they contribute nothing). -/
def sumSizes (s : Mem) (l : List Nat) : Nat :=
  (l.map fun a => (s.heap a).size).sum

/-- A region is incorporated by `mem_init` iff its size is at least
`MEM_BLOCK_META_SIZE + MEM_ALIGN_NUM` both before and after the alignment
adjustments. -/
def region_accepted (r : mem_region_t) : Bool :=
  decide (MEM_BLOCK_META_SIZE + MEM_ALIGN_NUM ≤ r.size) &&
  decide (MEM_BLOCK_META_SIZE + MEM_ALIGN_NUM ≤ effective_size r)

/-- The all-zero pristine state of the C translation unit: static objects
are zero-initialized; the managed regions' bytes are caller memory, whose
initial header contents the model fixes arbitrarily. -/
def mem0 : Mem :=
  { startNext := none, end_block := none, mem_alloc_bit := 0
    mem_available_bytes := 0, mem_regions_count := 0
    heap := fun _ => ⟨none, 0⟩ }

/-- sanity: H = 8 -/
example : MEM_BLOCK_META_SIZE = 8 := by decide

example : MEM_ALIGN 1000 = 1000 := by decide

example : (1000 &&& ALLOC_BIT) = 0 := by decide

example : ((2 ^ 31 + 1016) &&& (0xFFFFFFFF ^^^ ALLOC_BIT)) = 1016 := by decide

/-! ### A concrete single-region scenario

One 4-aligned region of 1024 bytes at address 4096.  After `mem_init` the
free list is one block of size `1024 - 8 = 1016` at 4096 followed by the
tail sentinel at `4096 + 1024 - 8 = 5112`. -/

/-- The specification's literal scenario region: 1024 bytes at a 4-aligned
address. -/
def region1 : List mem_region_t := [⟨4096, 1024⟩]

/-- The state immediately after `mem_init` on `region1`. -/
def state1 : Mem := (mem_init mem0 region1).2

/-- `state1` after `malloc(1000)` (which consumes the whole 1016 block). -/
def state1m : Mem := (mem_malloc state1 1000 10).2

/-- `state1m` after freeing the single allocation. -/
def state1mf : Mem := mem_free state1m (some 4104) 10

/-- `state1mf` after a second `malloc(1000)`/`free` cycle. -/
def state1mf2 : Mem := mem_free (mem_malloc state1mf 1000 10).2 (some 4104) 10

/-! ### Helper lemmas -/

/-- `ifb_phase2` only rewrites the heap: every scalar field survives. -/
theorem ifb_phase2_proj (s : Mem) (curr : Option Nat) (nb : Nat) :
    (ifb_phase2 s curr nb).startNext = s.startNext ∧
    (ifb_phase2 s curr nb).end_block = s.end_block ∧
    (ifb_phase2 s curr nb).mem_alloc_bit = s.mem_alloc_bit ∧
    (ifb_phase2 s curr nb).mem_available_bytes = s.mem_available_bytes ∧
    (ifb_phase2 s curr nb).mem_regions_count = s.mem_regions_count := by
  unfold ifb_phase2
  dsimp only
  split_ifs <;> exact ⟨rfl, rfl, rfl, rfl, rfl⟩

/-- `ifb_link` only rewrites the heap or `start_block.next`. -/
theorem ifb_link_proj (s : Mem) (curr : Option Nat) (nb : Nat) :
    (ifb_link s curr nb).end_block = s.end_block ∧
    (ifb_link s curr nb).mem_alloc_bit = s.mem_alloc_bit ∧
    (ifb_link s curr nb).mem_available_bytes = s.mem_available_bytes ∧
    (ifb_link s curr nb).mem_regions_count = s.mem_regions_count := by
  unfold ifb_link
  cases curr with
  | none => exact ⟨rfl, rfl, rfl, rfl⟩
  | some c =>
    dsimp only
    split_ifs <;> exact ⟨rfl, rfl, rfl, rfl⟩

/-- `insert_free_block` touches only headers and `start_block.next`; in
particular it never changes `mem_available_bytes`. -/
theorem insert_free_block_proj (s : Mem) (nb fuel : Nat) :
    (insert_free_block s nb fuel).end_block = s.end_block ∧
    (insert_free_block s nb fuel).mem_alloc_bit = s.mem_alloc_bit ∧
    (insert_free_block s nb fuel).mem_available_bytes = s.mem_available_bytes ∧
    (insert_free_block s nb fuel).mem_regions_count = s.mem_regions_count := by
  unfold insert_free_block
  cases h : ifb_walk s nb none fuel with
  | none => exact ⟨rfl, rfl, rfl, rfl⟩
  | some curr =>
    cases curr with
    | none =>
      obtain ⟨-, h1, h2, h3, h4⟩ := ifb_phase2_proj s none nb
      obtain ⟨g1, g2, g3, g4⟩ := ifb_link_proj (ifb_phase2 s none nb) none nb
      exact ⟨g1.trans h1, g2.trans h2, g3.trans h3, g4.trans h4⟩
    | some c =>
      dsimp only
      split_ifs with hc
      · obtain ⟨-, h1, h2, h3, h4⟩ := ifb_phase2_proj
          { s with heap := hupd s.heap c ⟨(s.heap c).next, (s.heap c).size + (s.heap nb).size⟩ }
          (some c) c
        obtain ⟨g1, g2, g3, g4⟩ := ifb_link_proj (ifb_phase2
          { s with heap := hupd s.heap c ⟨(s.heap c).next, (s.heap c).size + (s.heap nb).size⟩ }
          (some c) c) (some c) c
        exact ⟨g1.trans h1, g2.trans h2, g3.trans h3, g4.trans h4⟩
      · obtain ⟨-, h1, h2, h3, h4⟩ := ifb_phase2_proj s (some c) nb
        obtain ⟨g1, g2, g3, g4⟩ := ifb_link_proj (ifb_phase2 s (some c) nb) (some c) nb
        exact ⟨g1.trans h1, g2.trans h2, g3.trans h3, g4.trans h4⟩

/-- A failed `mem_malloc` performs no state mutation at all: every failure
return happens before any write. -/
theorem mem_malloc_none_eq (s : Mem) (n fuel : Nat)
    (h : (mem_malloc s n fuel).1 = none) : (mem_malloc s n fuel).2 = s := by
  unfold mem_malloc at h ⊢
  dsimp only at h ⊢
  split_ifs at h ⊢ with h1 h2
  · rfl
  · rfl
  · cases hw : mwalk s (MEM_ALIGN n + MEM_BLOCK_META_SIZE) none fuel with
    | none => simp only [hw]
    | some pc =>
      simp only [hw] at h
      exact absurd h (by simp)

/-- A region failing the size checks is skipped without any state change. -/
theorem mem_init_region_skip (s : Mem) (r : mem_region_t)
    (h : region_accepted r = false) : mem_init_region s r = s := by
  have h2 : MEM_BLOCK_META_SIZE + MEM_ALIGN_NUM ≤ r.size →
      effective_size r < MEM_BLOCK_META_SIZE + MEM_ALIGN_NUM := by
    simpa [region_accepted] using h
  unfold mem_init_region
  by_cases hg : r.size < MEM_BLOCK_META_SIZE + MEM_ALIGN_NUM
  · rw [if_pos hg]
  · rw [if_neg hg]
    dsimp only
    rw [if_pos (h2 (by omega))]

/-- Installing the first accepted region from an uninitialized state, as
one explicit record. -/
theorem mem_init_region_accept (s : Mem) (r : mem_region_t)
    (he : s.end_block = none) (hacc : region_accepted r = true) :
    mem_init_region s r =
      { startNext := some (effective_start r)
        end_block := some (effective_start r + effective_size r - MEM_BLOCK_META_SIZE)
        mem_alloc_bit := s.mem_alloc_bit
        mem_available_bytes :=
          s.mem_available_bytes + (effective_size r - MEM_BLOCK_META_SIZE)
        mem_regions_count := s.mem_regions_count + 1
        heap :=
          hupd
            (hupd s.heap (effective_start r + effective_size r - MEM_BLOCK_META_SIZE)
              ⟨none, 0⟩)
            (effective_start r)
            ⟨some (effective_start r + effective_size r - MEM_BLOCK_META_SIZE),
             effective_size r - MEM_BLOCK_META_SIZE⟩ } := by
  obtain ⟨h1, h2⟩ : MEM_BLOCK_META_SIZE + MEM_ALIGN_NUM ≤ r.size ∧
      MEM_BLOCK_META_SIZE + MEM_ALIGN_NUM ≤ effective_size r := by
    simpa [region_accepted] using hacc
  unfold mem_init_region
  rw [if_neg (not_lt.mpr h1)]
  dsimp only
  rw [if_neg (not_lt.mpr h2)]
  rw [if_pos he]
  simp [he]

/-- The counters and sentinel pointer after installing an accepted region
(from any state). -/
theorem mem_init_region_accept_proj (s : Mem) (r : mem_region_t)
    (hacc : region_accepted r = true) :
    (mem_init_region s r).mem_regions_count = s.mem_regions_count + 1 ∧
    (mem_init_region s r).end_block =
      some (effective_start r + effective_size r - MEM_BLOCK_META_SIZE) ∧
    (mem_init_region s r).mem_alloc_bit = s.mem_alloc_bit ∧
    (mem_init_region s r).mem_available_bytes =
      s.mem_available_bytes + (effective_size r - MEM_BLOCK_META_SIZE) := by
  obtain ⟨h1, h2⟩ : MEM_BLOCK_META_SIZE + MEM_ALIGN_NUM ≤ r.size ∧
      MEM_BLOCK_META_SIZE + MEM_ALIGN_NUM ≤ effective_size r := by
    simpa [region_accepted] using hacc
  unfold mem_init_region
  rw [if_neg (not_lt.mpr h1)]
  dsimp only
  rw [if_neg (not_lt.mpr h2)]
  cases he : s.end_block <;> simp [he]

/-- The region loop increments `mem_regions_count` once per accepted
region. -/
theorem foldl_regions_count (rs : List mem_region_t) : ∀ s : Mem,
    (List.foldl mem_init_region s rs).mem_regions_count =
      s.mem_regions_count + rs.countP region_accepted := by
  induction rs with
  | nil => intro s; simp
  | cons r rest ih =>
    intro s
    simp only [List.foldl, List.countP_cons]
    cases h : region_accepted r with
    | false => rw [mem_init_region_skip s r h, ih]; simp [h]
    | true =>
      rw [ih, (mem_init_region_accept_proj s r h).1]
      simp
      try omega

/-- If no region is accepted, the region loop is the identity. -/
theorem foldl_regions_skip_all (rs : List mem_region_t) : ∀ s : Mem,
    rs.countP region_accepted = 0 → List.foldl mem_init_region s rs = s := by
  induction rs with
  | nil => intro s _; rfl
  | cons r rest ih =>
    intro s h0
    simp only [List.countP_cons] at h0
    have hr : region_accepted r = false := by
      cases h : region_accepted r
      · rfl
      · rw [h] at h0
        simp at h0
    have hrest : rest.countP region_accepted = 0 := by
      simpa [hr] using h0
    simp only [List.foldl, mem_init_region_skip s r hr, ih _ hrest]

/-- `mem_init` never reads `mem_alloc_bit`, so its return value does not
depend on it. -/
theorem mem_init_fst_bit (s : Mem) (b : Nat) (rs : List mem_region_t) :
    (mem_init { s with mem_alloc_bit := b } rs).1 = (mem_init s rs).1 := by
  unfold mem_init
  by_cases he : s.end_block = none <;> by_cases hm : regions_monotone 0 0 rs = true <;>
    simp [he, hm, foldl_regions_count]

/-- The ordering loop of `mem_init` accepts exactly the monotonically
non-overlapping region arrays (the virtual predecessor of the first region
is the empty region at address 0). -/
theorem regions_monotone_iff (rs : List mem_region_t) : ∀ pa ps : Nat,
    regions_monotone pa ps rs = true ↔
      ((∀ r0 ∈ rs.head?, pa + ps ≤ r0.start_addr) ∧
       List.Chain' (fun a b : mem_region_t => a.start_addr + a.size ≤ b.start_addr) rs) := by
  induction rs with
  | nil => intro pa ps; simp [regions_monotone]
  | cons r rest ih =>
    intro pa ps
    simp only [regions_monotone]
    by_cases h : pa + ps > r.start_addr
    · rw [if_pos h]
      simp only [Bool.false_eq_true, false_iff, not_and]
      intro hh
      exact absurd (hh r (by simp)) (by omega)
    · rw [if_neg h]
      rw [ih r.start_addr r.size]
      have hle : pa + ps ≤ r.start_addr := by omega
      simp [List.chain'_cons', hle]

/-! ### Claim theorems -/

/-- C1: the claim states that after any sequence of allocations followed
by frees of every outstanding allocation, `mem_available_bytes` returns to
its post-init value.  The code violates this: after `mem_malloc(1000)` (no
split, whole 1016-byte block consumed but only `need = 1008` charged) and
`mem_free` of that single outstanding allocation, the free list is back to
its post-init shape but `mem_available_bytes` has grown from 1016 to 1024,
and to 1032 after a second identical cycle. -/
theorem roundtrip_violation :
    state1.mem_available_bytes = 1016 ∧
    (mem_malloc state1 1000 10).1 = some 4104 ∧
    chainb state1mf state1mf.startNext [4096, 5112] = true ∧
    state1mf.heap 4096 = ⟨some 5112, 1016⟩ ∧
    state1mf.mem_available_bytes = 1024 ∧
    state1mf2.mem_available_bytes = 1032 ∧
    ¬ state1mf.mem_available_bytes = state1.mem_available_bytes := by decide

/-- C2: on the literal scenario (fresh 1024-byte region, `malloc(1000)`),
`need = 1008` and no split occurs (remaining 8 is not `> 16`), the whole
1016-byte block is consumed (its stored size stays 1016, tagged), and a
subsequent `malloc(1)` returns null — all as claimed — but
`mem_available_bytes` is left at `1016 - 1008 = 8`, not 0 as the claim
states: the no-split path charges only `need`. -/
theorem split_threshold_divergence :
    (mem_init mem0 region1).1 = 1 ∧
    state1.mem_available_bytes = 1016 ∧
    state1.heap 4096 = ⟨some 5112, 1016⟩ ∧
    MEM_ALIGN 1000 + MEM_BLOCK_META_SIZE = 1008 ∧
    ¬ (1016 - 1008 > 2 * MEM_BLOCK_META_SIZE) ∧
    (mem_malloc state1 1000 10).1 = some 4104 ∧
    (state1m.heap 4096).size = 1016 ||| ALLOC_BIT ∧
    state1m.startNext = some 5112 ∧
    state1m.mem_available_bytes = 8 ∧
    ¬ state1m.mem_available_bytes = 0 ∧
    (mem_malloc state1m 1 10).1 = none := by decide

/-- C3 (counterexample): immediately after a successful `mem_init` the
free list holds one non-sentinel block of stored size 1016 and
`mem_available_bytes = 1016`, which differs from the claimed
`Σ (size - H) = 1008`. -/
theorem available_not_sum_minus_meta :
    chainb state1 state1.startNext [4096, 5112] = true ∧
    state1.end_block = some 5112 ∧
    (state1.heap 5112).size = 0 ∧
    (state1.heap 4096).size = 1016 ∧
    (([4096].map fun a => (state1.heap a).size - MEM_BLOCK_META_SIZE).sum = 1008) ∧
    state1.mem_available_bytes = 1016 ∧
    ¬ state1.mem_available_bytes =
        ([4096].map fun a => (state1.heap a).size - MEM_BLOCK_META_SIZE).sum := by decide

/-- C3 (amended): immediately after a successful `mem_init` of a single
accepted region from the uninitialized state, `mem_available_bytes` equals
the sum of the raw stored `size` fields (not `size - H`) of the blocks on
the free list; the trailing sentinel stores size 0, so the sum ranges
effectively over the free non-sentinel blocks. -/
theorem mem_init_available_eq_sum (s : Mem) (r : mem_region_t)
    (he : s.end_block = none) (hav : s.mem_available_bytes = 0)
    (hacc : region_accepted r = true) :
    chainb (mem_init s [r]).2 (mem_init s [r]).2.startNext
      [effective_start r,
       effective_start r + effective_size r - MEM_BLOCK_META_SIZE] = true ∧
    ((mem_init s [r]).2.heap
      (effective_start r + effective_size r - MEM_BLOCK_META_SIZE)).size = 0 ∧
    (mem_init s [r]).2.end_block =
      some (effective_start r + effective_size r - MEM_BLOCK_META_SIZE) ∧
    (mem_init s [r]).2.mem_available_bytes =
      sumSizes (mem_init s [r]).2
        [effective_start r,
         effective_start r + effective_size r - MEM_BLOCK_META_SIZE] := by
  obtain ⟨h1, h2⟩ : MEM_BLOCK_META_SIZE + MEM_ALIGN_NUM ≤ r.size ∧
      MEM_BLOCK_META_SIZE + MEM_ALIGN_NUM ≤ effective_size r := by
    simpa [region_accepted] using hacc
  have e8 : MEM_BLOCK_META_SIZE = 8 := by decide
  have e4 : MEM_ALIGN_NUM = 4 := by decide
  have hne : effective_start r + effective_size r - MEM_BLOCK_META_SIZE ≠
      effective_start r := by
    rw [e8, e4] at h2
    rw [e8]
    omega
  have hmono : regions_monotone 0 0 [r] = true := by
    simp [regions_monotone]
  have hsnd : (mem_init s [r]).2 =
      { startNext := some (effective_start r)
        end_block := some (effective_start r + effective_size r - MEM_BLOCK_META_SIZE)
        mem_alloc_bit := ALLOC_BIT
        mem_available_bytes :=
          s.mem_available_bytes + (effective_size r - MEM_BLOCK_META_SIZE)
        mem_regions_count := s.mem_regions_count + 1
        heap :=
          hupd
            (hupd s.heap (effective_start r + effective_size r - MEM_BLOCK_META_SIZE)
              ⟨none, 0⟩)
            (effective_start r)
            ⟨some (effective_start r + effective_size r - MEM_BLOCK_META_SIZE),
             effective_size r - MEM_BLOCK_META_SIZE⟩ } := by
    unfold mem_init
    rw [if_neg (not_not_intro he), if_neg (not_not_intro hmono)]
    dsimp only [List.foldl]
    rw [mem_init_region_accept s r he hacc]
  rw [hsnd]
  refine ⟨?_, ?_, rfl, ?_⟩
  · simp [chainb, hupd, hne]
  · simp [hupd, hne]
  · simp [sumSizes, hupd, hne, hav]

/-- Witness for the amended C3 theorem on the concrete scenario region. -/
theorem mem_init_available_eq_sum_witness :
    mem0.end_block = none ∧ mem0.mem_available_bytes = 0 ∧
    region_accepted ⟨4096, 1024⟩ = true ∧
    (mem_init mem0 [⟨4096, 1024⟩]).2.mem_available_bytes =
      sumSizes (mem_init mem0 [⟨4096, 1024⟩]).2
        [effective_start ⟨4096, 1024⟩,
         effective_start ⟨4096, 1024⟩ + effective_size ⟨4096, 1024⟩ - MEM_BLOCK_META_SIZE] :=
  ⟨rfl, rfl, by decide,
    (mem_init_available_eq_sum mem0 ⟨4096, 1024⟩ rfl rfl (by decide)).2.2.2⟩

/-- C5: `mem_free(NULL)` is a no-op; a non-null pointer whose header fails
the validation (`size & alloc_bit` set AND `next == NULL`) is silently
rejected with no state change; a pointer passing it has the alloc-bit
cleared in the stored size, `mem_available_bytes` incremented by exactly
that cleared stored size, and the block inserted into the free list via
`insert_free_block` (which leaves `mem_available_bytes` untouched). -/
theorem mem_free_contract (s : Mem) (p fuel : Nat) :
    mem_free s none fuel = s ∧
    (¬ ((s.heap (p - MEM_BLOCK_META_SIZE)).size &&& s.mem_alloc_bit ≠ 0 ∧
        (s.heap (p - MEM_BLOCK_META_SIZE)).next = none) →
      mem_free s (some p) fuel = s) ∧
    (((s.heap (p - MEM_BLOCK_META_SIZE)).size &&& s.mem_alloc_bit ≠ 0 ∧
        (s.heap (p - MEM_BLOCK_META_SIZE)).next = none) →
      (mem_free s (some p) fuel =
        insert_free_block
          { s with
            heap := hupd s.heap (p - MEM_BLOCK_META_SIZE)
              ⟨(s.heap (p - MEM_BLOCK_META_SIZE)).next,
               (s.heap (p - MEM_BLOCK_META_SIZE)).size &&& (0xFFFFFFFF ^^^ s.mem_alloc_bit)⟩
            mem_available_bytes := s.mem_available_bytes +
              ((s.heap (p - MEM_BLOCK_META_SIZE)).size &&& (0xFFFFFFFF ^^^ s.mem_alloc_bit)) }
          (p - MEM_BLOCK_META_SIZE) fuel) ∧
      (mem_free s (some p) fuel).mem_available_bytes =
        s.mem_available_bytes +
          ((s.heap (p - MEM_BLOCK_META_SIZE)).size &&& (0xFFFFFFFF ^^^ s.mem_alloc_bit))) := by
  refine ⟨rfl, ?_, ?_⟩
  · intro hv
    unfold mem_free
    dsimp only
    rw [if_neg hv]
  · intro hv
    constructor
    · unfold mem_free
      dsimp only
      rw [if_pos hv]
    · unfold mem_free
      dsimp only
      rw [if_pos hv]
      rw [(insert_free_block_proj _ _ _).2.2.1]

/-- Witness for C5: in `state1m` the allocation at payload 4104 has a
valid tagged header and is released (available bytes grow by the stored
size), while payload 4096 has no valid header and frees to a no-op. -/
theorem mem_free_contract_witness :
    ((state1m.heap (4104 - MEM_BLOCK_META_SIZE)).size &&& state1m.mem_alloc_bit ≠ 0 ∧
      (state1m.heap (4104 - MEM_BLOCK_META_SIZE)).next = none) ∧
    (mem_free state1m (some 4104) 10).mem_available_bytes =
      state1m.mem_available_bytes +
        ((state1m.heap (4104 - MEM_BLOCK_META_SIZE)).size &&&
          (0xFFFFFFFF ^^^ state1m.mem_alloc_bit)) ∧
    mem_free state1m (some 4096) 10 = state1m := by
  refine ⟨by decide, ((mem_free_contract state1m 4104 10).2.2 (by decide)).2, ?_⟩
  exact (mem_free_contract state1m 4096 10).2.1 (by decide)

/-- C9: the `mem_realloc` dispatch table.  `realloc(NULL, 0)` is null with
no state change; `realloc(NULL, n)` is `malloc(n)`; `realloc(p, 0)` is
`free(p)` returning null; and with `p` non-null, `n > 0`, a failing inner
`malloc` leaves the entire state (hence the original allocation's header
and, in this header model, everything else) unchanged, while on success
the old block is freed only after the copy, via `mem_free` on the
post-malloc state. -/
theorem mem_realloc_contract (s : Mem) (p n fuel : Nat) :
    mem_realloc s none 0 fuel = (none, s) ∧
    (n ≠ 0 → mem_realloc s none n fuel = mem_malloc s n fuel) ∧
    (mem_realloc s (some p) 0 fuel = (none, mem_free s (some p) fuel)) ∧
    (n ≠ 0 → (mem_malloc s n fuel).1 = none →
        mem_realloc s (some p) n fuel = (none, s)) ∧
    (n ≠ 0 → ∀ np s1, mem_malloc s n fuel = (some np, s1) →
        mem_realloc s (some p) n fuel = (some np, mem_free s1 (some p) fuel)) := by
  refine ⟨rfl, ?_, rfl, ?_, ?_⟩
  · intro hn
    unfold mem_realloc
    rw [if_neg hn]
  · intro hn hm
    unfold mem_realloc
    rw [if_neg hn]
    dsimp only
    have h2 := mem_malloc_none_eq s n fuel hm
    cases hw : mem_malloc s n fuel with
    | mk fst snd =>
      rw [hw] at hm h2
      dsimp at hm h2
      subst hm h2
      rfl
  · intro hn np s1 hw
    unfold mem_realloc
    rw [if_neg hn]
    dsimp only
    rw [hw]

/-- Witness for C9: in `state1` a 100-byte reallocation of the block at
4104 succeeds (inner malloc returns 4104 again), and in the exhausted
state `state1m` a 2000-byte reallocation fails with the state intact. -/
theorem mem_realloc_contract_witness :
    mem_realloc state1 none 0 10 = (none, state1) ∧
    mem_realloc state1 none 100 10 = mem_malloc state1 100 10 ∧
    mem_realloc state1 (some 4104) 0 10 = (none, mem_free state1 (some 4104) 10) ∧
    mem_realloc state1m (some 4104) 2000 10 = (none, state1m) ∧
    mem_realloc state1 (some 4104) 100 10 =
      (some 4104, mem_free (mem_malloc state1 100 10).2 (some 4104) 10) := by
  refine ⟨(mem_realloc_contract state1 4104 0 10).1,
    (mem_realloc_contract state1 4104 100 10).2.1 (by decide),
    (mem_realloc_contract state1 4104 0 10).2.2.1,
    (mem_realloc_contract state1m 4104 2000 10).2.2.2.1 (by decide) (by decide),
    (mem_realloc_contract state1 4104 100 10).2.2.2.2 (by decide) 4104
      (mem_malloc state1 100 10).2 ?_⟩
  have h1 : (mem_malloc state1 100 10).1 = some 4104 := by decide
  cases hw : mem_malloc state1 100 10 with
  | mk fst snd =>
    rw [hw] at h1
    dsimp at h1
    rw [h1]

/-- C8: from an uninitialized state (no region accepted yet, so the region
counter is still 0), `mem_init` returns 0 when already initialized or when
some region starts below the end of its predecessor, and otherwise returns
the number of regions accepted, where a region is accepted exactly when
its size is at least `H + A` both before and after the alignment
adjustments (`region_accepted`). -/
theorem mem_init_contract (s : Mem) (rs : List mem_region_t)
    (hc : s.mem_regions_count = 0) :
    (mem_init s rs).1 =
      if s.end_block ≠ none then 0
      else if ¬ List.Chain'
          (fun a b : mem_region_t => a.start_addr + a.size ≤ b.start_addr) rs then 0
      else rs.countP region_accepted := by
  unfold mem_init
  by_cases he : s.end_block = none
  · rw [if_neg (not_not_intro he), if_neg (not_not_intro he)]
    by_cases hm : regions_monotone 0 0 rs = true
    · have hch := ((regions_monotone_iff rs 0 0).mp hm).2
      rw [if_neg (not_not_intro hm), if_neg (not_not_intro hch)]
      dsimp only
      rw [foldl_regions_count]
      omega
    · have hch : ¬ List.Chain'
          (fun a b : mem_region_t => a.start_addr + a.size ≤ b.start_addr) rs :=
        fun hch => hm ((regions_monotone_iff rs 0 0).mpr ⟨by simp, hch⟩)
      rw [if_pos hm, if_pos hch]
  · rw [if_pos he, if_pos he]

/-- Witness for C8: a region list with one too-small region and one
accepted region yields exactly one accepted region. -/
theorem mem_init_contract_witness :
    mem0.mem_regions_count = 0 ∧
    (mem_init mem0 [⟨4096, 10⟩, ⟨5120, 1024⟩]).1 =
      if mem0.end_block ≠ none then 0
      else if ¬ List.Chain'
          (fun a b : mem_region_t => a.start_addr + a.size ≤ b.start_addr)
          [⟨4096, 10⟩, ⟨5120, 1024⟩] then 0
      else List.countP region_accepted [⟨4096, 10⟩, ⟨5120, 1024⟩] :=
  ⟨rfl, mem_init_contract mem0 [⟨4096, 10⟩, ⟨5120, 1024⟩] rfl⟩

/-- C10: if a `mem_init` call from the uninitialized pristine state
returns 0 while the monotonicity loop either failed or every region was
skipped (equivalently, the call returned 0 from that state), then
`end_block` is still `NULL` afterwards, so the once-only guard is not
consumed: any subsequent `mem_init` call returns exactly what it would
have returned from the original state. -/
theorem mem_init_guard_not_consumed (s : Mem) (rs : List mem_region_t)
    (he : s.end_block = none) (hc : s.mem_regions_count = 0)
    (h0 : (mem_init s rs).1 = 0) :
    (mem_init s rs).2.end_block = none ∧
    ∀ rs2, (mem_init (mem_init s rs).2 rs2).1 = (mem_init s rs2).1 := by
  by_cases hm : regions_monotone 0 0 rs = true
  · have hsnd : (mem_init s rs).2 = { s with mem_alloc_bit := ALLOC_BIT } := by
      have hcnt : rs.countP region_accepted = 0 := by
        unfold mem_init at h0
        rw [if_neg (not_not_intro he), if_neg (not_not_intro hm)] at h0
        dsimp only at h0
        rw [foldl_regions_count] at h0
        omega
      unfold mem_init
      rw [if_neg (not_not_intro he), if_neg (not_not_intro hm)]
      dsimp only
      rw [foldl_regions_skip_all rs s hcnt]
    rw [hsnd]
    exact ⟨he, fun rs2 => mem_init_fst_bit s ALLOC_BIT rs2⟩
  · have hz : mem_init s rs = (0, s) := by
      unfold mem_init
      rw [if_neg (not_not_intro he), if_pos hm]
    rw [hz]
    exact ⟨he, fun rs2 => rfl⟩

/-- Witness for C10: a first call whose only region is too small accepts
nothing, and a second call with the scenario region still succeeds
(returns 1, as from scratch). -/
theorem mem_init_guard_not_consumed_witness :
    (mem_init mem0 [⟨4096, 10⟩]).1 = 0 ∧
    (mem_init mem0 [⟨4096, 10⟩]).2.end_block = none ∧
    (mem_init (mem_init mem0 [⟨4096, 10⟩]).2 region1).1 = (mem_init mem0 region1).1 ∧
    (mem_init mem0 region1).1 = 1 := by
  have h := mem_init_guard_not_consumed mem0 [⟨4096, 10⟩] rfl rfl (by decide)
  exact ⟨by decide, h.1, h.2 region1, by decide⟩

/-- The first-fit walk returns a block of sufficient size, pointed to by
the returned `prev`, and every block the walk stepped past (in particular
`prev` itself when it is a real block) is too small. -/
theorem mwalk_found (s : Mem) (need : Nat) : ∀ (fuel : Nat) (prev : Option Nat)
    (pr : Option Nat) (c : Nat),
    (∀ q, prev = some q → (s.heap q).size < need) →
    mwalk s need prev fuel = some (pr, c) →
    need ≤ (s.heap c).size ∧ readNextPtr s pr = some c ∧
      (∀ q, pr = some q → (s.heap q).size < need) := by
  intro fuel
  induction fuel with
  | zero => intro prev pr c _ h; exact absurd h (by simp [mwalk])
  | succ f ih =>
    intro prev pr c hprev h
    unfold mwalk at h
    cases hn : readNextPtr s prev with
    | none => rw [hn] at h; exact absurd h (by simp)
    | some curr =>
      rw [hn] at h
      dsimp only at h
      by_cases hsz : (s.heap curr).size < need
      · rw [if_pos hsz] at h
        by_cases hstop : (s.heap curr).next = none ∨ some curr = s.end_block
        · rw [if_pos hstop] at h
          exact absurd h (by simp)
        · rw [if_neg hstop] at h
          refine ih (some curr) pr c ?_ h
          intro q hq
          obtain rfl := Option.some.inj hq
          exact hsz
      · rw [if_neg hsz] at h
        simp only [Option.some.injEq, Prod.mk.injEq] at h
        obtain ⟨rfl, rfl⟩ := h
        exact ⟨not_lt.mp hsz, hn, hprev⟩

/-- Under the free-list invariant (the chain from the walk's start is `L`
and the tail sentinel's `next` is `NULL`), the first-fit walk fails
exactly when no block on the chain is big enough. -/
theorem mwalk_none_iff (s : Mem) (need : Nat)
    (hend : ∀ a, s.end_block = some a → (s.heap a).next = none) :
    ∀ (L : List Nat) (prev : Option Nat) (fuel : Nat),
    chainb s (readNextPtr s prev) L = true → L.length < fuel →
    (mwalk s need prev fuel = none ↔ ∀ a ∈ L, (s.heap a).size < need) := by
  intro L
  induction L with
  | nil =>
    intro prev fuel hch hfu
    have hn : readNextPtr s prev = none := by simpa [chainb] using hch
    cases fuel with
    | zero => omega
    | succ f => simp [mwalk, hn]
  | cons a L ih =>
    intro prev fuel hch hfu
    obtain ⟨hn, hch'⟩ : readNextPtr s prev = some a ∧ chainb s (s.heap a).next L = true := by
      simpa [chainb] using hch
    cases fuel with
    | zero => omega
    | succ f =>
      unfold mwalk
      rw [hn]
      dsimp only
      by_cases hsz : (s.heap a).size < need
      · rw [if_pos hsz]
        by_cases hstop : (s.heap a).next = none ∨ some a = s.end_block
        · rw [if_pos hstop]
          have hLnil : L = [] := by
            have hnone : (s.heap a).next = none := by
              rcases hstop with h | h
              · exact h
              · exact hend a h.symm
            rw [hnone] at hch'
            cases L with
            | nil => rfl
            | cons b L => simp [chainb] at hch'
          subst hLnil
          simp [hsz]
        · rw [if_neg hstop]
          have := ih (some a) f (by simpa [readNextPtr] using hch') (by simpa using hfu)
          rw [this]
          constructor
          · intro hall x hx
            rcases List.mem_cons.mp hx with rfl | hx
            · exact hsz
            · exact hall x hx
          · intro hall x hx
            exact hall x (List.mem_cons_of_mem a hx)
      · rw [if_neg hsz]
        constructor
        · intro h
          exact absurd h (by simp)
        · intro hall
          exact absurd (hall a (List.mem_cons_self a L)) hsz

/-- C4: `mem_malloc(size)` returns null exactly when the allocator is
uninitialized, or `size` is 0, or `size` has the alloc-bit set, or
`need = MEM_ALIGN(size) + H` has the alloc-bit set, or the first-fit walk
exhausts the free list (equivalently, under the free-list invariant: no
block on the list has size at least `need`); and whenever it returns null
the entire allocator state (globals, links and size fields) is unchanged. -/
theorem mem_malloc_null_iff (s : Mem) (size fuel : Nat) (L : List Nat)
    (hbit : s.end_block ≠ none → s.mem_alloc_bit = ALLOC_BIT)
    (hinv : s.end_block ≠ none →
      (chainb s s.startNext L = true ∧
       (∀ a, s.end_block = some a → (s.heap a).next = none) ∧
       L.length < fuel)) :
    ((mem_malloc s size fuel).1 = none ↔
      (s.end_block = none ∨ size = 0 ∨ size &&& ALLOC_BIT ≠ 0 ∨
       (MEM_ALIGN size + MEM_BLOCK_META_SIZE) &&& ALLOC_BIT ≠ 0 ∨
       ∀ a ∈ L, (s.heap a).size < MEM_ALIGN size + MEM_BLOCK_META_SIZE)) ∧
    ((mem_malloc s size fuel).1 = none → (mem_malloc s size fuel).2 = s) := by
  refine ⟨?_, mem_malloc_none_eq s size fuel⟩
  by_cases he : s.end_block = none
  · unfold mem_malloc
    rw [if_pos (Or.inl he)]
    simp [he]
  · obtain ⟨hch, hend, hfu⟩ := hinv he
    have hb := hbit he
    unfold mem_malloc
    rw [hb]
    by_cases h0 : size = 0
    · rw [if_pos (Or.inr (Or.inl h0))]
      simp [h0]
    · by_cases h1 : size &&& ALLOC_BIT ≠ 0
      · rw [if_pos (Or.inr (Or.inr h1))]
        simp [h1]
      · rw [if_neg (by simp [he, h0, h1])]
        dsimp only
        by_cases h2 : (MEM_ALIGN size + MEM_BLOCK_META_SIZE) &&& ALLOC_BIT ≠ 0
        · rw [if_pos h2]
          simp [he, h0, h1, h2]
        · rw [if_neg h2]
          have hiff := mwalk_none_iff s (MEM_ALIGN size + MEM_BLOCK_META_SIZE) hend L
            none fuel (by simpa [readNextPtr] using hch) hfu
          cases hw : mwalk s (MEM_ALIGN size + MEM_BLOCK_META_SIZE) none fuel with
          | none =>
            rw [hw] at hiff
            have hall := hiff.mp rfl
            simp only [hw]
            simp only [he, h0, h1, h2]
            simp
            exact hall
          | some pc =>
            rw [hw] at hiff
            have hnall : ¬ ∀ a ∈ L, (s.heap a).size <
                MEM_ALIGN size + MEM_BLOCK_META_SIZE := by
              intro hall
              have := hiff.mpr hall
              simp at this
            simp only [hw]
            cases pc with
            | mk prev curr =>
              dsimp only
              simp [he, h0, h1, h2, hnall]

/-- Reading a heap write back at the written address. -/
theorem hupd_same (h : Nat → mem_block_t) (a : Nat) (v : mem_block_t) :
    hupd h a v a = v := by simp [hupd]

/-- A heap write does not affect other addresses. -/
theorem hupd_other (h : Nat → mem_block_t) (a : Nat) (v : mem_block_t) (b : Nat)
    (hne : b ≠ a) : hupd h a v b = h b := by simp [hupd, hne]

/-- C7: after the first-fit block `curr` is unlinked (`munlink`), a split
occurs if and only if `curr->size - need > 2 * H` (the walk guarantees
`need ≤ curr->size`, so the `size_t` subtraction is exact); when it
occurs, a new free block of size `curr->size - need` is written at
`curr + need`, `curr`'s size becomes `need`, and the remainder is inserted
via `insert_free_block` before the block is tagged; otherwise the whole
block is allocated intact, its stored size staying `curr->size` (tagged
with the alloc-bit). -/
theorem mem_malloc_split_iff (s : Mem) (size fuel : Nat) (prev : Option Nat) (curr : Nat)
    (hg1 : ¬ (s.end_block = none ∨ size = 0 ∨ size &&& s.mem_alloc_bit ≠ 0))
    (hg2 : ¬ ((MEM_ALIGN size + MEM_BLOCK_META_SIZE) &&& s.mem_alloc_bit ≠ 0))
    (hw : mwalk s (MEM_ALIGN size + MEM_BLOCK_META_SIZE) none fuel = some (prev, curr)) :
    let need := MEM_ALIGN size + MEM_BLOCK_META_SIZE
    let s1 : Mem := munlink s prev curr
    let csize := (s1.heap curr).size
    csize = (s.heap curr).size ∧
    need ≤ csize ∧
    (2 * MEM_BLOCK_META_SIZE < csize - need →
      mem_malloc s size fuel =
        (some (curr + MEM_BLOCK_META_SIZE),
         mfinish
           (insert_free_block
             { s1 with
               heap :=
                 hupd (hupd s1.heap (curr + need) ⟨(s1.heap (curr + need)).next, csize - need⟩)
                   curr ⟨(s1.heap curr).next, need⟩ }
             (curr + need) fuel)
           need curr)) ∧
    (¬ 2 * MEM_BLOCK_META_SIZE < csize - need →
      mem_malloc s size fuel = (some (curr + MEM_BLOCK_META_SIZE), mfinish s1 need curr) ∧
      ((mfinish s1 need curr).heap curr).size = csize ||| s.mem_alloc_bit) := by
  obtain ⟨hsz, hnx, hpr⟩ := mwalk_found s (MEM_ALIGN size + MEM_BLOCK_META_SIZE) fuel
    none prev curr (by simp) hw
  have h8 : MEM_BLOCK_META_SIZE = 8 := by decide
  have hcne : curr ≠ curr + (MEM_ALIGN size + MEM_BLOCK_META_SIZE) := by omega
  have hsc : (munlink s prev curr).heap curr = s.heap curr := by
    cases prev with
    | none => rfl
    | some p =>
      have hpc : curr ≠ p := by
        intro hc
        exact absurd hsz (not_le.mpr (hc ▸ hpr p rfl))
      unfold munlink
      dsimp only
      exact hupd_other _ _ _ _ hpc
  have hbit : (munlink s prev curr).mem_alloc_bit = s.mem_alloc_bit := by
    cases prev <;> rfl
  have hmm : mem_malloc s size fuel =
      (let need := MEM_ALIGN size + MEM_BLOCK_META_SIZE
       let s2 : Mem := munlink s prev curr
       let csize := (s2.heap curr).size
       let s3 :=
         if csize - need > 2 * MEM_BLOCK_META_SIZE then
           let nxt := curr + need
           let s4 := { s2 with heap := hupd s2.heap nxt ⟨(s2.heap nxt).next, csize - need⟩ }
           let s5 := { s4 with heap := hupd s4.heap curr ⟨(s4.heap curr).next, need⟩ }
           insert_free_block s5 nxt fuel
         else s2
       let s6 := { s3 with
         heap := hupd s3.heap curr ⟨none, (s3.heap curr).size ||| s3.mem_alloc_bit⟩ }
       (some (curr + MEM_BLOCK_META_SIZE),
        { s6 with mem_available_bytes := s6.mem_available_bytes - need })) := by
    unfold mem_malloc
    rw [if_neg hg1]
    dsimp only
    rw [if_neg hg2]
    simp only [hw]
  dsimp only
  refine ⟨by rw [hsc], by rw [hsc]; exact hsz, ?_, ?_⟩
  · intro hsp
    rw [hmm]
    dsimp only
    rw [if_pos hsp]
    rw [hupd_other (munlink s prev curr).heap _ _ _ hcne]
    rfl
  · intro hsp
    rw [hmm]
    dsimp only
    rw [if_neg hsp]
    refine ⟨rfl, ?_⟩
    simp [mfinish, hupd_same, hbit]

/-- Witness for C4 on the post-init scenario state with the free list
`[4096, 5112]`. -/
theorem mem_malloc_null_iff_witness :
    ((mem_malloc state1 100 10).1 = none ↔
      (state1.end_block = none ∨ 100 = 0 ∨ 100 &&& ALLOC_BIT ≠ 0 ∨
       (MEM_ALIGN 100 + MEM_BLOCK_META_SIZE) &&& ALLOC_BIT ≠ 0 ∨
       ∀ a ∈ [4096, 5112], (state1.heap a).size < MEM_ALIGN 100 + MEM_BLOCK_META_SIZE)) ∧
    ((mem_malloc state1 100 10).1 = none → (mem_malloc state1 100 10).2 = state1) := by
  refine mem_malloc_null_iff state1 100 10 [4096, 5112] (fun _ => by decide)
    (fun _ => ⟨by decide, ?_, by decide⟩)
  intro a ha
  have h5 : state1.end_block = some 5112 := by decide
  rw [h5] at ha
  obtain rfl := Option.some.inj ha
  decide

/-- Witness for C7: in the scenario state, `malloc(100)` (need 108, block
1016, remainder 908 > 16) takes the split branch, and `malloc(1000)` (need
1008, remainder 8) leaves the block intact. -/
theorem mem_malloc_split_iff_witness :
    mem_malloc state1 100 10 =
      (some (4096 + MEM_BLOCK_META_SIZE),
       mfinish
         (insert_free_block
           { munlink state1 none 4096 with
             heap :=
               hupd
                 (hupd (munlink state1 none 4096).heap
                   (4096 + (MEM_ALIGN 100 + MEM_BLOCK_META_SIZE))
                   ⟨((munlink state1 none 4096).heap
                      (4096 + (MEM_ALIGN 100 + MEM_BLOCK_META_SIZE))).next,
                    ((munlink state1 none 4096).heap 4096).size -
                      (MEM_ALIGN 100 + MEM_BLOCK_META_SIZE)⟩)
                 4096
                 ⟨((munlink state1 none 4096).heap 4096).next,
                  MEM_ALIGN 100 + MEM_BLOCK_META_SIZE⟩ }
           (4096 + (MEM_ALIGN 100 + MEM_BLOCK_META_SIZE)) 10)
         (MEM_ALIGN 100 + MEM_BLOCK_META_SIZE) 4096) ∧
    mem_malloc state1 1000 10 =
      (some (4096 + MEM_BLOCK_META_SIZE),
       mfinish (munlink state1 none 4096) (MEM_ALIGN 1000 + MEM_BLOCK_META_SIZE) 4096) ∧
    ((mfinish (munlink state1 none 4096) (MEM_ALIGN 1000 + MEM_BLOCK_META_SIZE) 4096).heap
        4096).size =
      ((munlink state1 none 4096).heap 4096).size ||| state1.mem_alloc_bit :=
  ⟨(mem_malloc_split_iff state1 100 10 none 4096 (by decide) (by decide)
      (by decide)).2.2.1 (by decide),
   ((mem_malloc_split_iff state1 1000 10 none 4096 (by decide) (by decide)
      (by decide)).2.2.2 (by decide)).1,
   ((mem_malloc_split_iff state1 1000 10 none 4096 (by decide) (by decide)
      (by decide)).2.2.2 (by decide)).2⟩

theorem chainb_eq_chainSeg (s : Mem) : ∀ (l : List Nat) (p : Option Nat),
    chainb s p l = chainSeg s p l none := by
  intro l
  induction l with
  | nil => intro p; rfl
  | cons a l ih => intro p; simp [chainb, chainSeg, ih]

theorem chainSeg_append (s : Mem) : ∀ (l1 l2 : List Nat) (p q : Option Nat),
    chainSeg s p (l1 ++ l2) q = true ↔
      ∃ m, chainSeg s p l1 m = true ∧ chainSeg s m l2 q = true := by
  intro l1
  induction l1 with
  | nil =>
    intro l2 p q
    simp only [List.nil_append, chainSeg]
    constructor
    · intro h
      exact ⟨p, by simp, h⟩
    · rintro ⟨m, hm, h⟩
      have : p = m := by simpa using hm
      rwa [this]
  | cons a l1 ih =>
    intro l2 p q
    constructor
    · intro h
      obtain ⟨hp, h2⟩ : p = some a ∧ chainSeg s (s.heap a).next (l1 ++ l2) q = true := by
        simpa [chainSeg] using h
      obtain ⟨m, h3, h4⟩ := (ih l2 _ q).mp h2
      refine ⟨m, ?_, h4⟩
      simp [chainSeg, hp, h3]
    · rintro ⟨m, h1, h2⟩
      obtain ⟨hp, h3⟩ : p = some a ∧ chainSeg s (s.heap a).next l1 m = true := by
        simpa [chainSeg] using h1
      have hres := (ih l2 _ q).mpr ⟨m, h3, h2⟩
      simp [chainSeg, hp]
      exact hres

theorem chainSeg_congr (s s2 : Mem) : ∀ (l : List Nat) (p q : Option Nat),
    (∀ a ∈ l, s2.heap a = s.heap a) →
    (chainSeg s2 p l q = chainSeg s p l q) := by
  intro l
  induction l with
  | nil => intro p q _; rfl
  | cons a l ih =>
    intro p q hh
    simp only [chainSeg]
    rw [hh a (by simp), ih ((s.heap a).next) q (fun x hx => hh x (by simp [hx]))]

theorem ifb_walk_spec (s : Mem) (nb : Nat) : ∀ (P rest : List Nat) (r : Nat)
    (curr : Option Nat) (fuel : Nat),
    chainSeg s (readNextPtr s curr) (P ++ r :: rest) none = true →
    (∀ a ∈ P, a < nb) → ¬ (r < nb) → P.length < fuel →
    ifb_walk s nb curr fuel = some (P.foldl (fun _ a => some a) curr) := by
  intro P
  induction P with
  | nil =>
    intro rest r curr fuel hch hP hr hfu
    obtain ⟨hn, -⟩ : readNextPtr s curr = some r ∧
        chainSeg s (s.heap r).next rest none = true := by
      simpa [chainSeg] using hch
    cases fuel with
    | zero => omega
    | succ f =>
      unfold ifb_walk
      rw [hn]
      simp [ptrLtB, hr]
  | cons a P ih =>
    intro rest r curr fuel hch hP hr hfu
    obtain ⟨hn, hch'⟩ : readNextPtr s curr = some a ∧
        chainSeg s (s.heap a).next (P ++ r :: rest) none = true := by
      simpa [chainSeg] using hch
    cases fuel with
    | zero => omega
    | succ f =>
      unfold ifb_walk
      rw [hn]
      have ha : a < nb := hP a (by simp)
      have hlt : ptrLtB (some a) nb = true := by simp [ptrLtB, ha]
      rw [hlt]
      simp only [if_true, List.foldl_cons]
      exact ih rest r (some a) f (by simpa [readNextPtr] using hch')
        (fun x hx => hP x (by simp [hx])) hr (by simpa using hfu)

theorem ifb_phase2_sentinel (s : Mem) (curr : Option Nat) (nb : Nat)
    (h1 : readNextPtr s curr = some (nb + (s.heap nb).size))
    (h2 : readNextPtr s curr = s.end_block) :
    ifb_phase2 s curr nb =
      { s with heap := hupd s.heap nb ⟨s.end_block, (s.heap nb).size⟩ } := by
  unfold ifb_phase2
  rw [if_pos h1, if_pos h2]

theorem ifb_phase2_absorb (s : Mem) (curr : Option Nat) (nb : Nat)
    (h1 : readNextPtr s curr = some (nb + (s.heap nb).size))
    (h2 : readNextPtr s curr ≠ s.end_block) :
    ifb_phase2 s curr nb =
      { s with
        heap := hupd s.heap nb
          ⟨(s.heap (nb + (s.heap nb).size)).next,
           (s.heap nb).size + (s.heap (nb + (s.heap nb).size)).size⟩ } := by
  unfold ifb_phase2
  rw [if_pos h1, if_neg h2]

theorem ifb_phase2_noadj (s : Mem) (curr : Option Nat) (nb : Nat)
    (h1 : readNextPtr s curr ≠ some (nb + (s.heap nb).size)) :
    ifb_phase2 s curr nb =
      { s with heap := hupd s.heap nb ⟨readNextPtr s curr, (s.heap nb).size⟩ } := by
  unfold ifb_phase2
  rw [if_neg h1]

theorem ifb_link_none (t : Mem) (nb : Nat) :
    ifb_link t none nb = { t with startNext := some nb } := rfl

theorem ifb_link_some (t : Mem) (c nb : Nat) (h : c ≠ nb) :
    ifb_link t (some c) nb = { t with heap := hupd t.heap c ⟨some nb, (t.heap c).size⟩ } := by
  unfold ifb_link
  dsimp only
  rw [if_neg h]

theorem ifb_link_self (t : Mem) (c : Nat) : ifb_link t (some c) c = t := by
  unfold ifb_link
  dsimp only
  rw [if_pos rfl]

theorem insert_free_block_eq_noleft (s : Mem) (nb fuel : Nat) (curr : Option Nat)
    (hw : ifb_walk s nb none fuel = some curr)
    (hnl : ∀ cc, curr = some cc → cc + (s.heap cc).size ≠ nb) :
    insert_free_block s nb fuel = ifb_link (ifb_phase2 s curr nb) curr nb := by
  unfold insert_free_block
  rw [hw]
  cases curr with
  | none => rfl
  | some c =>
    dsimp only
    rw [if_neg (hnl c rfl)]

theorem insert_free_block_eq_left (s : Mem) (nb fuel c : Nat)
    (hw : ifb_walk s nb none fuel = some (some c))
    (hl : c + (s.heap c).size = nb) :
    insert_free_block s nb fuel =
      ifb_link
        (ifb_phase2
          { s with heap := hupd s.heap c ⟨(s.heap c).next, (s.heap c).size + (s.heap nb).size⟩ }
          (some c) c)
        (some c) c := by
  unfold insert_free_block
  rw [hw]
  dsimp only
  rw [if_pos hl]

theorem dropWhile_head_not {α : Type} (p : α → Bool) :
    ∀ (l : List α) (a : α) (rest : List α), l.dropWhile p = a :: rest → p a = false := by
  intro l
  induction l with
  | nil => intro a rest h; simp [List.dropWhile] at h
  | cons x xs ih =>
    intro a rest h
    rw [List.dropWhile_cons] at h
    by_cases hp : p x = true
    · rw [if_pos hp] at h
      exact ih a rest h
    · rw [if_neg hp] at h
      obtain ⟨rfl, -⟩ := List.cons.inj h
      exact Bool.not_eq_true _ ▸ hp

theorem mem_of_getLast?A : ∀ (l : List Nat) (a : Nat), l.getLast? = some a → a ∈ l := by
  intro l
  induction l with
  | nil => intro a h; simp at h
  | cons x xs ih =>
    intro a h
    cases xs with
    | nil =>
      simp only [List.getLast?_singleton, Option.some.injEq] at h
      simp [h]
    | cons y ys =>
      rw [List.getLast?_cons_cons] at h
      exact List.mem_cons_of_mem x (ih a h)

theorem getLast?_cons_cases : ∀ (rest' : List Nat) (r e : Nat),
    (r :: rest').getLast? = some e →
    (r = e ∧ rest' = []) ∨ (rest' ≠ [] ∧ rest'.getLast? = some e) := by
  intro rest' r e h
  cases rest' with
  | nil =>
    left
    simp only [List.getLast?_singleton, Option.some.injEq] at h
    exact ⟨h, rfl⟩
  | cons y ys =>
    right
    rw [List.getLast?_cons_cons] at h
    exact ⟨by simp, h⟩

theorem chain'_append_of (P X : List Nat)
    (h1 : List.Chain' (fun a b : Nat => a < b) P)
    (h2 : List.Chain' (fun a b : Nat => a < b) X)
    (h3 : ∀ p ∈ P, ∀ x ∈ X, p < x) :
    List.Chain' (fun a b : Nat => a < b) (P ++ X) :=
  List.chain'_append.mpr ⟨h1, h2, fun x hx y hy =>
    h3 x (mem_of_getLast?A P x hx) y (List.mem_of_mem_head? hy)⟩

set_option maxHeartbeats 1000000

/-- C6: `insert_free_block` preserves the free-list invariant.  If the free
list from `start_block.next` visits the strictly increasing chain `L`
terminating in the tail sentinel `e` (after which traversal reaches null),
and the new block `nb` is not on the list and lies below the sentinel,
then after insertion traversal again visits a strictly increasing chain
ending at the same sentinel `e`, whose header is untouched.  Moreover, a
left-adjacent predecessor (`cc + cc.size == nb`) absorbs `nb` (`nb` is not
linked and `cc` grows by at least `nb.size`); when there is no left merge
and `curr.next == nb + nb.size`: if that neighbour is the terminal
sentinel it is not absorbed (`nb.next` is set to `end_block`, size
unchanged), while a non-sentinel right neighbour is absorbed
(`nb.size += neighbour.size` and `nb.next = neighbour.next`). -/
theorem insert_free_block_invariant (s : Mem) (nb e fuel : Nat) (L : List Nat)
    (hch : chainb s s.startNext L = true)
    (hsort : List.Chain' (fun a b : Nat => a < b) L)
    (hlast : L.getLast? = some e)
    (hend : s.end_block = some e)
    (hnbL : nb ∉ L) (hnbe : nb < e)
    (hfuel : L.length < fuel) :
    (∃ L', chainb (insert_free_block s nb fuel)
        (insert_free_block s nb fuel).startNext L' = true ∧
      List.Chain' (fun a b : Nat => a < b) L' ∧
      L'.getLast? = some e ∧
      (∀ cc, ifb_walk s nb none fuel = some (some cc) → cc + (s.heap cc).size = nb →
        nb ∉ L' ∧ cc ∈ L' ∧
        (s.heap cc).size + (s.heap nb).size ≤
          ((insert_free_block s nb fuel).heap cc).size)) ∧
    (insert_free_block s nb fuel).heap e = s.heap e ∧
    (∀ c : Option Nat, ifb_walk s nb none fuel = some c →
      (∀ cc, c = some cc → cc + (s.heap cc).size ≠ nb) →
      readNextPtr s c = some (nb + (s.heap nb).size) →
      ((readNextPtr s c = s.end_block →
        ((insert_free_block s nb fuel).heap nb).next = s.end_block ∧
        ((insert_free_block s nb fuel).heap nb).size = (s.heap nb).size) ∧
       (readNextPtr s c ≠ s.end_block →
        ((insert_free_block s nb fuel).heap nb).size =
          (s.heap nb).size + (s.heap (nb + (s.heap nb).size)).size ∧
        ((insert_free_block s nb fuel).heap nb).next =
          (s.heap (nb + (s.heap nb).size)).next))) := by
  have hP : ∀ a ∈ L.takeWhile (fun a => decide (a < nb)), a < nb := by
    intro a ha
    simpa using List.mem_takeWhile_imp ha
  have hPR : L.takeWhile (fun a => decide (a < nb)) ++
      L.dropWhile (fun a => decide (a < nb)) = L :=
    List.takeWhile_append_dropWhile _ _
  have heL : e ∈ L := mem_of_getLast?A L e hlast
  have hRne : L.dropWhile (fun a => decide (a < nb)) ≠ [] := by
    intro h
    rw [h, List.append_nil] at hPR
    rw [← hPR] at heL
    have := hP e heL
    omega
  obtain ⟨r, rest', hREST⟩ : ∃ r rest',
      L.dropWhile (fun a => decide (a < nb)) = r :: rest' := by
    cases hR : L.dropWhile (fun a => decide (a < nb)) with
    | nil => exact absurd hR hRne
    | cons a l => exact ⟨a, l, rfl⟩
  have hr : ¬ r < nb := by
    simpa using dropWhile_head_not (fun a => decide (a < nb)) L r rest' hREST
  have hpw : L.Pairwise (fun a b : Nat => a < b) := List.chain'_iff_pairwise.mp hsort
  have hpw2 : (L.takeWhile (fun a => decide (a < nb)) ++
      L.dropWhile (fun a => decide (a < nb))).Pairwise (fun a b : Nat => a < b) := by
    rw [hPR]
    exact hpw
  have hpw3 := List.pairwise_append.mp hpw2
  have hrL : r ∈ L := by
    rw [← hPR, hREST]
    exact List.mem_append_right _ (List.mem_cons_self r rest')
  have hnbr : nb < r := by
    have hne : r ≠ nb := fun hh => hnbL (hh ▸ hrL)
    omega
  have hchSeg : chainSeg s s.startNext
      (L.takeWhile (fun a => decide (a < nb)) ++ L.dropWhile (fun a => decide (a < nb)))
      none = true := by
    rw [hPR, ← chainb_eq_chainSeg]
    exact hch
  obtain ⟨m, hm1, hm2⟩ := (chainSeg_append s _ _ s.startNext none).mp hchSeg
  obtain ⟨hmr, hrest'⟩ : m = some r ∧ chainSeg s (s.heap r).next rest' none = true := by
    rw [hREST] at hm2
    simpa [chainSeg] using hm2
  subst hmr
  have hRlast : (r :: rest').getLast? = some e := by
    rw [← hPR, List.getLast?_append, hREST] at hlast
    cases hRl : (r :: rest').getLast? with
    | some x =>
      rw [hRl] at hlast
      simpa using hlast
    | none =>
      rw [List.getLast?_eq_none_iff] at hRl
      exact absurd hRl (by simp)
  have hwalk : ifb_walk s nb none fuel =
      some ((L.takeWhile (fun a => decide (a < nb))).foldl (fun _ a => some a) none) := by
    refine ifb_walk_spec s nb _ rest' r none fuel ?_ hP hr ?_
    · show chainSeg s s.startNext _ none = true
      rw [← hREST]
      exact hchSeg
    · have hlen := congrArg List.length hPR
      rw [List.length_append] at hlen
      omega
  -- split on whether the walk prefix is empty
  rcases List.eq_nil_or_concat' (L.takeWhile (fun a => decide (a < nb))) with hPnil | ⟨P0, c, hPc⟩
  · -- the walk stops at start_block
    rw [hPnil] at hwalk hPR hm1
    simp only [List.foldl_nil] at hwalk
    have hstart : s.startNext = some r := by simpa [chainSeg] using hm1
    have hLr : L = r :: rest' := by rw [← hPR, List.nil_append, hREST]
    have hins0 : insert_free_block s nb fuel = ifb_link (ifb_phase2 s none nb) none nb :=
      insert_free_block_eq_noleft s nb fuel none hwalk (fun cc h => Option.noConfusion h)
    have hrnp : readNextPtr s none = some r := hstart
    have hnomem : ∀ a ∈ r :: rest', a ≠ nb := by
      intro a ha
      rw [← hLr] at ha
      exact fun hh => hnbL (hh ▸ ha)
    by_cases hadj : r = nb + (s.heap nb).size
    · by_cases hre : r = e
      · -- right-adjacent to the terminal sentinel: do not absorb
        have hphase := ifb_phase2_sentinel s none nb
          (by rw [hrnp, hadj]) (by rw [hrnp, hre, hend])
        have hins : insert_free_block s nb fuel =
            { s with
              heap := hupd s.heap nb ⟨s.end_block, (s.heap nb).size⟩
              startNext := some nb } := by
          rw [hins0, hphase, ifb_link_none]
        refine ⟨⟨nb :: r :: rest', ?_, ?_, ?_, ?_⟩, ?_, ?_⟩
        · rw [chainb_eq_chainSeg, hins]
          show chainSeg _ (some nb) _ none = true
          have htail : chainSeg { s with
              heap := hupd s.heap nb ⟨s.end_block, (s.heap nb).size⟩
              startNext := some nb } (s.heap r).next rest' none = true := by
            rw [chainSeg_congr]
            · exact hrest'
            · intro a ha
              exact hupd_other _ _ _ _ (hnomem a (by simp [ha]))
          simp only [chainSeg, Bool.and_eq_true, beq_iff_eq]
          refine ⟨trivial, ?_, ?_⟩
          · show (hupd s.heap nb ⟨s.end_block, (s.heap nb).size⟩ nb).next = some r
            rw [hupd_same, hend, hre]
          · show chainSeg _ ((hupd s.heap nb ⟨s.end_block, (s.heap nb).size⟩ r).next) rest'
              none = true
            rw [hupd_other _ _ _ _ (hnomem r (by simp))]
            exact htail
        · exact List.chain'_cons.mpr ⟨hnbr, hLr ▸ hsort⟩
        · rw [List.getLast?_cons_cons]
          exact hRlast
        · intro cc hw' hl
          rw [hwalk] at hw'
          exact absurd (Option.some.inj hw') (fun hh => Option.noConfusion hh)
        · rw [hins]
          exact hupd_other _ _ _ _ (by omega)
        · intro c hw' hnl hadj'
          rw [hwalk] at hw'
          obtain rfl : (none : Option Nat) = c := Option.some.inj hw'
          constructor
          · intro _
            rw [hins]
            constructor
            · show (hupd s.heap nb ⟨s.end_block, (s.heap nb).size⟩ nb).next = s.end_block
              rw [hupd_same]
            · show (hupd s.heap nb ⟨s.end_block, (s.heap nb).size⟩ nb).size = (s.heap nb).size
              rw [hupd_same]
          · intro hne
            exact absurd (by rw [hrnp, hre, hend]) hne
      · -- absorb the non-sentinel right neighbour
        have hXr : nb + (s.heap nb).size = r := hadj.symm
        have hphase := ifb_phase2_absorb s none nb
          (by rw [hrnp, hadj])
          (by rw [hrnp, hend]; exact fun hh => hre (Option.some.inj hh))
        rw [hXr] at hphase
        have hins : insert_free_block s nb fuel =
            { s with
              heap := hupd s.heap nb
                ⟨(s.heap r).next, (s.heap nb).size + (s.heap r).size⟩
              startNext := some nb } := by
          rw [hins0, hphase, ifb_link_none]
        obtain ⟨hrne, hrlast'⟩ : rest' ≠ [] ∧ rest'.getLast? = some e := by
          rcases getLast?_cons_cases rest' r e hRlast with ⟨hh, -⟩ | hh
          · exact absurd hh hre
          · exact hh
        refine ⟨⟨nb :: rest', ?_, ?_, ?_, ?_⟩, ?_, ?_⟩
        · rw [chainb_eq_chainSeg, hins]
          show chainSeg _ (some nb) _ none = true
          have htail : chainSeg { s with
              heap := hupd s.heap nb
                ⟨(s.heap r).next, (s.heap nb).size + (s.heap r).size⟩
              startNext := some nb } (s.heap r).next rest' none = true := by
            rw [chainSeg_congr]
            · exact hrest'
            · intro a ha
              exact hupd_other _ _ _ _ (hnomem a (by simp [ha]))
          simp only [chainSeg, Bool.and_eq_true, beq_iff_eq]
          refine ⟨trivial, ?_⟩
          show chainSeg _
            ((hupd s.heap nb ⟨(s.heap r).next, (s.heap nb).size + (s.heap r).size⟩ nb).next)
            rest' none = true
          rw [hupd_same]
          exact htail
        · rw [List.chain'_cons']
          have hsr : List.Chain' (fun a b : Nat => a < b) (r :: rest') := hLr ▸ hsort
          refine ⟨?_, hsr.tail⟩
          intro y hy
          have := (List.chain'_cons'.mp hsr).1 y hy
          omega
        · cases hc : rest' with
          | nil => exact absurd hc hrne
          | cons y ys =>
            rw [List.getLast?_cons_cons]
            rw [← hc]
            exact hrlast'
        · intro cc hw' hl
          rw [hwalk] at hw'
          exact absurd (Option.some.inj hw') (fun hh => Option.noConfusion hh)
        · rw [hins]
          exact hupd_other _ _ _ _ (by omega)
        · intro c hw' hnl hadj'
          rw [hwalk] at hw'
          obtain rfl : (none : Option Nat) = c := Option.some.inj hw'
          constructor
          · intro h
            rw [hrnp, hend] at h
            exact absurd (Option.some.inj h) hre
          · intro hne
            rw [hins]
            constructor
            · show (hupd s.heap nb
                  ⟨(s.heap r).next, (s.heap nb).size + (s.heap r).size⟩ nb).size =
                (s.heap nb).size + (s.heap (nb + (s.heap nb).size)).size
              rw [hupd_same, hXr]
            · show (hupd s.heap nb
                  ⟨(s.heap r).next, (s.heap nb).size + (s.heap r).size⟩ nb).next =
                (s.heap (nb + (s.heap nb).size)).next
              rw [hupd_same, hXr]
    · -- no right adjacency
      have hphase := ifb_phase2_noadj s none nb
        (by rw [hrnp]; exact fun hh => hadj (Option.some.inj hh))
      rw [hrnp] at hphase
      have hins : insert_free_block s nb fuel =
          { s with
            heap := hupd s.heap nb ⟨some r, (s.heap nb).size⟩
            startNext := some nb } := by
        rw [hins0, hphase, ifb_link_none]
      refine ⟨⟨nb :: r :: rest', ?_, ?_, ?_, ?_⟩, ?_, ?_⟩
      · rw [chainb_eq_chainSeg, hins]
        show chainSeg _ (some nb) _ none = true
        have htail : chainSeg { s with
            heap := hupd s.heap nb ⟨some r, (s.heap nb).size⟩
            startNext := some nb } (s.heap r).next rest' none = true := by
          rw [chainSeg_congr]
          · exact hrest'
          · intro a ha
            exact hupd_other _ _ _ _ (hnomem a (by simp [ha]))
        simp only [chainSeg, Bool.and_eq_true, beq_iff_eq]
        refine ⟨trivial, ?_, ?_⟩
        · show (hupd s.heap nb ⟨some r, (s.heap nb).size⟩ nb).next = some r
          rw [hupd_same]
        · show chainSeg _ ((hupd s.heap nb ⟨some r, (s.heap nb).size⟩ r).next) rest'
            none = true
          rw [hupd_other _ _ _ _ (hnomem r (by simp))]
          exact htail
      · exact List.chain'_cons.mpr ⟨hnbr, hLr ▸ hsort⟩
      · rw [List.getLast?_cons_cons]
        exact hRlast
      · intro cc hw' hl
        rw [hwalk] at hw'
        exact absurd (Option.some.inj hw') (fun hh => Option.noConfusion hh)
      · rw [hins]
        exact hupd_other _ _ _ _ (by omega)
      · intro c hw' hnl hadj'
        rw [hwalk] at hw'
        obtain rfl : (none : Option Nat) = c := Option.some.inj hw'
        rw [hrnp] at hadj'
        exact absurd (Option.some.inj hadj') hadj
  · -- the walk stops at block c, the last free block below nb
    rw [hPc] at hwalk hPR hm1 hpw3 hP
    rw [List.foldl_append] at hwalk
    simp only [List.foldl_cons, List.foldl_nil] at hwalk
    have hcP : c < nb := hP c (List.mem_append_right P0 (List.mem_cons_self c []))
    obtain ⟨m2, hm21, hm22⟩ := (chainSeg_append s P0 [c] s.startNext (some r)).mp hm1
    obtain ⟨hm2c, hcnext⟩ : m2 = some c ∧ (s.heap c).next = some r := by
      simpa [chainSeg] using hm22
    subst hm2c
    have hnomem : ∀ a ∈ r :: rest', a ≠ nb := by
      intro a ha hh
      apply hnbL
      rw [← hPR, hREST]
      exact hh ▸ List.mem_append_right _ ha
    have hP0lt : ∀ x ∈ P0, x < c := by
      intro x hx
      have := (List.pairwise_append.mp hpw3.1).2.2 x hx c (List.mem_cons_self c [])
      exact this
    have hcREST : ∀ y ∈ r :: rest', c < y := by
      intro y hy
      rw [← hREST] at hy
      exact hpw3.2.2 c (List.mem_append_right P0 (List.mem_cons_self c [])) y hy
    have hcr : c < r := hcREST r (List.mem_cons_self r rest')
    have hrlt : ∀ y ∈ rest', r < y := by
      intro y hy
      have hRpw := hpw3.2.1
      rw [hREST] at hRpw
      exact (List.pairwise_cons.mp hRpw).1 y hy
    have hchainP0 : ∀ s2 : Mem, (∀ a ∈ P0, s2.heap a = s.heap a) →
        s2.startNext = s.startNext →
        chainSeg s2 s2.startNext P0 (some c) = true := by
      intro s2 hagree hsn
      rw [hsn, chainSeg_congr s s2 P0 s.startNext (some c) hagree]
      exact hm21
    have hP0nb : ∀ x ∈ P0, x ≠ nb := by
      intro x hx
      have := hP x (List.mem_append_left [c] hx)
      omega
    have hP0c : ∀ x ∈ P0, x ≠ c := fun x hx => Nat.ne_of_lt (hP0lt x hx)
    have hchainP0' : List.Chain' (fun a b : Nat => a < b) P0 :=
      List.chain'_iff_pairwise.mpr (List.pairwise_append.mp hpw3.1).1
    have hchainREST : List.Chain' (fun a b : Nat => a < b) (r :: rest') := by
      rw [← hREST]
      exact List.chain'_iff_pairwise.mpr hpw3.2.1
    by_cases hl : c + (s.heap c).size = nb
    · -- left merge: c absorbs nb
      set s1 : Mem := { s with
        heap := hupd s.heap c ⟨(s.heap c).next, (s.heap c).size + (s.heap nb).size⟩ } with hs1def
      have hins0 : insert_free_block s nb fuel =
          ifb_link (ifb_phase2 s1 (some c) c) (some c) c :=
        insert_free_block_eq_left s nb fuel c hwalk hl
      have hs1c : s1.heap c = ⟨(s.heap c).next, (s.heap c).size + (s.heap nb).size⟩ := by
        rw [hs1def]
        exact hupd_same _ _ _
      have hs1o : ∀ x, x ≠ c → s1.heap x = s.heap x := by
        intro x hx
        rw [hs1def]
        exact hupd_other _ _ _ _ hx
      have hrc1 : readNextPtr s1 (some c) = some r := by
        show (s1.heap c).next = some r
        rw [hs1c]
        exact hcnext
      by_cases hadj : r = c + ((s.heap c).size + (s.heap nb).size)
      · by_cases hre : r = e
        · -- merged block right-adjacent to the terminal sentinel
          have hphase := ifb_phase2_sentinel s1 (some c) c
            (by rw [hrc1, hs1c]; exact congrArg some hadj)
            (by rw [hrc1]; show some r = s.end_block; rw [hend, hre])
          have hins : insert_free_block s nb fuel =
              { s1 with heap := hupd s1.heap c ⟨s1.end_block, (s1.heap c).size⟩ } := by
            rw [hins0, hphase, ifb_link_self]
          have hreads : ∀ x, x ≠ c → (insert_free_block s nb fuel).heap x = s.heap x := by
            intro x hx
            rw [hins]
            show hupd s1.heap c _ x = _
            rw [hupd_other _ _ _ _ hx]
            exact hs1o x hx
          have hreadc : (insert_free_block s nb fuel).heap c =
              ⟨s.end_block, (s.heap c).size + (s.heap nb).size⟩ := by
            rw [hins]
            show hupd s1.heap c _ c = _
            rw [hupd_same, hs1c]
          refine ⟨⟨L, ?_, hsort, hlast, ?_⟩, ?_, ?_⟩
          · rw [chainb_eq_chainSeg]
            have hsn : (insert_free_block s nb fuel).startNext = s.startNext := by
              rw [hins]
            rw [hsn, ← hPR, hREST]
            refine (chainSeg_append _ _ _ _ _).mpr ⟨some r, ?_, ?_⟩
            · refine (chainSeg_append _ _ _ _ _).mpr ⟨some c, ?_, ?_⟩
              · rw [← hsn]
                refine hchainP0 _ (fun a ha => hreads a (hP0c a ha)) ?_
                rw [hins]
              · simp only [chainSeg, Bool.and_eq_true, beq_iff_eq]
                refine ⟨trivial, ?_⟩
                show ((insert_free_block s nb fuel).heap c).next = some r
                rw [hreadc, hend, hre]
            · simp only [chainSeg, Bool.and_eq_true, beq_iff_eq]
              refine ⟨trivial, ?_⟩
              show chainSeg _ ((insert_free_block s nb fuel).heap r).next rest' none = true
              rw [hreads r (by omega)]
              rw [chainSeg_congr s _ rest' (s.heap r).next none]
              · exact hrest'
              · intro a ha
                exact hreads a (by have := hcREST a (List.mem_cons_of_mem r ha); omega)
          · intro cc hw' hl'
            rw [hwalk] at hw'
            obtain rfl : c = cc := Option.some.inj (Option.some.inj hw')
            refine ⟨hnbL, ?_, ?_⟩
            · rw [← hPR]
              exact List.mem_append_left _ (List.mem_append_right P0 (List.mem_cons_self c []))
            · rw [hreadc]
          · rw [hreads e (by omega)]
          · intro copt hw' hnl hadj'
            rw [hwalk] at hw'
            obtain rfl : some c = copt := Option.some.inj hw'
            exact absurd hl (hnl c rfl)
        · -- merged block absorbs its non-sentinel right neighbour
          have hXr : c + (s1.heap c).size = r := by
            rw [hs1c]
            show c + ((s.heap c).size + (s.heap nb).size) = r
            omega
          have hphase := ifb_phase2_absorb s1 (some c) c
            (by rw [hrc1, hs1c]; exact congrArg some hadj)
            (by rw [hrc1]; show some r ≠ s.end_block; rw [hend]
                exact fun hh => hre (Option.some.inj hh))
          rw [hXr] at hphase
          have hrne1 : r ≠ c := by omega
          have hphase' : ifb_phase2 s1 (some c) c =
              { s1 with
                heap := hupd s1.heap c
                  ⟨(s.heap r).next, (s1.heap c).size + (s.heap r).size⟩ } := by
            rw [hphase, hs1o r hrne1]
          have hins : insert_free_block s nb fuel =
              { s1 with
                heap := hupd s1.heap c
                  ⟨(s.heap r).next, (s1.heap c).size + (s.heap r).size⟩ } := by
            rw [hins0, hphase', ifb_link_self]
          have hreads : ∀ x, x ≠ c → (insert_free_block s nb fuel).heap x = s.heap x := by
            intro x hx
            rw [hins]
            show hupd s1.heap c _ x = _
            rw [hupd_other _ _ _ _ hx]
            exact hs1o x hx
          have hreadc : (insert_free_block s nb fuel).heap c =
              ⟨(s.heap r).next, ((s.heap c).size + (s.heap nb).size) + (s.heap r).size⟩ := by
            rw [hins]
            show hupd s1.heap c _ c = _
            rw [hupd_same, hs1c]
          obtain ⟨hrne', hrlast'⟩ : rest' ≠ [] ∧ rest'.getLast? = some e := by
            rcases getLast?_cons_cases rest' r e hRlast with ⟨hh, -⟩ | hh
            · exact absurd hh hre
            · exact hh
          refine ⟨⟨P0 ++ c :: rest', ?_, ?_, ?_, ?_⟩, ?_, ?_⟩
          · rw [chainb_eq_chainSeg]
            have hsn : (insert_free_block s nb fuel).startNext = s.startNext := by
              rw [hins]
            rw [hsn]
            refine (chainSeg_append _ _ _ _ _).mpr ⟨some c, ?_, ?_⟩
            · rw [← hsn]
              refine hchainP0 _ (fun a ha => hreads a (hP0c a ha)) ?_
              rw [hins]
            · simp only [chainSeg, Bool.and_eq_true, beq_iff_eq]
              refine ⟨trivial, ?_⟩
              show chainSeg _ ((insert_free_block s nb fuel).heap c).next rest' none = true
              rw [hreadc]
              show chainSeg _ (s.heap r).next rest' none = true
              rw [chainSeg_congr s _ rest' (s.heap r).next none]
              · exact hrest'
              · intro a ha
                exact hreads a (by have := hcREST a (List.mem_cons_of_mem r ha); omega)
          · refine chain'_append_of P0 (c :: rest') hchainP0' ?_ ?_
            · rw [List.chain'_cons']
              refine ⟨?_, hchainREST.tail⟩
              intro y hy
              have := hrlt y (List.mem_of_mem_head? hy)
              omega
            · intro p hp x hx
              rcases List.mem_cons.mp hx with rfl | hx
              · exact hP0lt p hp
              · have h1 := hP0lt p hp
                have h2 := hrlt x hx
                omega
          · rw [List.getLast?_append]
            cases hc2 : rest' with
            | nil => exact absurd hc2 hrne'
            | cons y ys =>
              rw [List.getLast?_cons_cons, ← hc2, hrlast']
              rfl
          · intro cc hw' hl'
            rw [hwalk] at hw'
            obtain rfl : c = cc := Option.some.inj (Option.some.inj hw')
            refine ⟨?_, ?_, ?_⟩
            · intro hmem
              rcases List.mem_append.mp hmem with hmem | hmem
              · exact hP0nb nb hmem rfl
              · rcases List.mem_cons.mp hmem with hh | hmem
                · omega
                · exact hnomem nb (List.mem_cons_of_mem r hmem) rfl
            · exact List.mem_append_right P0 (List.mem_cons_self c rest')
            · rw [hreadc]
              show (s.heap c).size + (s.heap nb).size ≤
                ((s.heap c).size + (s.heap nb).size) + (s.heap r).size
              omega
          · rw [hreads e (by omega)]
          · intro copt hw' hnl hadj'
            rw [hwalk] at hw'
            obtain rfl : some c = copt := Option.some.inj hw'
            exact absurd hl (hnl c rfl)
      · -- merged block not right-adjacent
        have hphase := ifb_phase2_noadj s1 (some c) c
          (by rw [hrc1, hs1c]
              exact fun hh => hadj (Option.some.inj hh))
        have hphase' : ifb_phase2 s1 (some c) c =
            { s1 with heap := hupd s1.heap c ⟨some r, (s1.heap c).size⟩ } := by
          rw [hphase, hrc1]
        have hins : insert_free_block s nb fuel =
            { s1 with heap := hupd s1.heap c ⟨some r, (s1.heap c).size⟩ } := by
          rw [hins0, hphase', ifb_link_self]
        have hreads : ∀ x, x ≠ c → (insert_free_block s nb fuel).heap x = s.heap x := by
          intro x hx
          rw [hins]
          show hupd s1.heap c _ x = _
          rw [hupd_other _ _ _ _ hx]
          exact hs1o x hx
        have hreadc : (insert_free_block s nb fuel).heap c =
            ⟨some r, (s.heap c).size + (s.heap nb).size⟩ := by
          rw [hins]
          show hupd s1.heap c _ c = _
          rw [hupd_same, hs1c]
        refine ⟨⟨L, ?_, hsort, hlast, ?_⟩, ?_, ?_⟩
        · rw [chainb_eq_chainSeg]
          have hsn : (insert_free_block s nb fuel).startNext = s.startNext := by
            rw [hins]
          rw [hsn, ← hPR, hREST]
          refine (chainSeg_append _ _ _ _ _).mpr ⟨some r, ?_, ?_⟩
          · refine (chainSeg_append _ _ _ _ _).mpr ⟨some c, ?_, ?_⟩
            · rw [← hsn]
              refine hchainP0 _ (fun a ha => hreads a (hP0c a ha)) ?_
              rw [hins]
            · simp only [chainSeg, Bool.and_eq_true, beq_iff_eq]
              refine ⟨trivial, ?_⟩
              show ((insert_free_block s nb fuel).heap c).next = some r
              rw [hreadc]
          · simp only [chainSeg, Bool.and_eq_true, beq_iff_eq]
            refine ⟨trivial, ?_⟩
            show chainSeg _ ((insert_free_block s nb fuel).heap r).next rest' none = true
            rw [hreads r (by omega)]
            rw [chainSeg_congr s _ rest' (s.heap r).next none]
            · exact hrest'
            · intro a ha
              exact hreads a (by have := hcREST a (List.mem_cons_of_mem r ha); omega)
        · intro cc hw' hl'
          rw [hwalk] at hw'
          obtain rfl : c = cc := Option.some.inj (Option.some.inj hw')
          refine ⟨hnbL, ?_, ?_⟩
          · rw [← hPR]
            exact List.mem_append_left _ (List.mem_append_right P0 (List.mem_cons_self c []))
          · rw [hreadc]
        · rw [hreads e (by omega)]
        · intro copt hw' hnl hadj'
          rw [hwalk] at hw'
          obtain rfl : some c = copt := Option.some.inj hw'
          exact absurd hl (hnl c rfl)
    · -- no left merge
      have hnl0 : ∀ cc, (some c : Option Nat) = some cc → cc + (s.heap cc).size ≠ nb := by
        intro cc hcc
        obtain rfl : c = cc := Option.some.inj hcc
        exact hl
      have hins0 : insert_free_block s nb fuel =
          ifb_link (ifb_phase2 s (some c) nb) (some c) nb :=
        insert_free_block_eq_noleft s nb fuel (some c) hwalk hnl0
      have hrc : readNextPtr s (some c) = some r := hcnext
      have hcnb : c ≠ nb := by omega
      by_cases hadj : r = nb + (s.heap nb).size
      · by_cases hre : r = e
        · -- new block right-adjacent to the terminal sentinel: do not absorb
          have hphase := ifb_phase2_sentinel s (some c) nb
            (by rw [hrc]; exact congrArg some hadj)
            (by rw [hrc, hend, hre])
          have hins : insert_free_block s nb fuel =
              { { s with heap := hupd s.heap nb ⟨s.end_block, (s.heap nb).size⟩ } with
                heap := hupd
                  ({ s with heap := hupd s.heap nb ⟨s.end_block, (s.heap nb).size⟩ } : Mem).heap
                  c ⟨some nb,
                    (({ s with heap := hupd s.heap nb ⟨s.end_block, (s.heap nb).size⟩ } : Mem).heap
                      c).size⟩ } := by
            rw [hins0, hphase, ifb_link_some _ _ _ hcnb]
          have hreads : ∀ x, x ≠ nb → x ≠ c → (insert_free_block s nb fuel).heap x = s.heap x := by
            intro x hx1 hx2
            rw [hins]
            show hupd _ c _ x = _
            rw [hupd_other _ _ _ _ hx2]
            exact hupd_other _ _ _ _ hx1
          have hreadnb : (insert_free_block s nb fuel).heap nb =
              ⟨s.end_block, (s.heap nb).size⟩ := by
            rw [hins]
            show hupd _ c _ nb = _
            rw [hupd_other _ _ _ _ hcnb.symm]
            exact hupd_same _ _ _
          have hreadc : (insert_free_block s nb fuel).heap c =
              ⟨some nb, (s.heap c).size⟩ := by
            rw [hins]
            show hupd _ c _ c = _
            rw [hupd_same]
            show (⟨some nb, (hupd s.heap nb ⟨s.end_block, (s.heap nb).size⟩ c).size⟩ : mem_block_t) = _
            rw [hupd_other _ _ _ _ hcnb]
          have hsn : (insert_free_block s nb fuel).startNext = s.startNext := by
            rw [hins]
          refine ⟨⟨P0 ++ c :: nb :: r :: rest', ?_, ?_, ?_, ?_⟩, ?_, ?_⟩
          · rw [chainb_eq_chainSeg, hsn]
            refine (chainSeg_append _ _ _ _ _).mpr ⟨some c, ?_, ?_⟩
            · rw [← hsn]
              refine hchainP0 _ (fun a ha => hreads a (hP0nb a ha) (hP0c a ha)) hsn
            · simp only [chainSeg, Bool.and_eq_true, beq_iff_eq]
              refine ⟨trivial, ?_, ?_, ?_⟩
              · show ((insert_free_block s nb fuel).heap c).next = some nb
                rw [hreadc]
              · show ((insert_free_block s nb fuel).heap nb).next = some r
                rw [hreadnb, hend, hre]
              · show chainSeg _ ((insert_free_block s nb fuel).heap r).next rest' none = true
                rw [hreads r (by omega) (by omega)]
                rw [chainSeg_congr s _ rest' (s.heap r).next none]
                · exact hrest'
                · intro a ha
                  have := hcREST a (List.mem_cons_of_mem r ha)
                  have := hrlt a ha
                  exact hreads a (hnomem a (List.mem_cons_of_mem r ha)) (by omega)
          · refine chain'_append_of P0 (c :: nb :: r :: rest') hchainP0' ?_ ?_
            · rw [List.chain'_cons]
              refine ⟨hcP, ?_⟩
              rw [List.chain'_cons]
              exact ⟨hnbr, hchainREST⟩
            · intro p hp x hx
              have hpc := hP0lt p hp
              rcases List.mem_cons.mp hx with rfl | hx
              · exact hpc
              · rcases List.mem_cons.mp hx with rfl | hx
                · omega
                · have := hcREST x hx
                  omega
          · rw [List.getLast?_append, List.getLast?_cons_cons, List.getLast?_cons_cons,
              hRlast]
            rfl
          · intro cc hw' hl'
            rw [hwalk] at hw'
            obtain rfl : c = cc := Option.some.inj (Option.some.inj hw')
            exact absurd hl' hl
          · exact hreads e (by omega) (by omega)
          · intro copt hw' hnl2 hadj'
            rw [hwalk] at hw'
            obtain rfl : some c = copt := Option.some.inj hw'
            constructor
            · intro _
              rw [hreadnb]
              exact ⟨rfl, rfl⟩
            · intro hne
              exact absurd (by rw [hrc, hend, hre]) hne
        · -- absorb the non-sentinel right neighbour of the new block
          have hXr : nb + (s.heap nb).size = r := hadj.symm
          have hphase := ifb_phase2_absorb s (some c) nb
            (by rw [hrc]; exact congrArg some hadj)
            (by rw [hrc, hend]; exact fun hh => hre (Option.some.inj hh))
          rw [hXr] at hphase
          have hins : insert_free_block s nb fuel =
              { { s with
                  heap := hupd s.heap nb
                    ⟨(s.heap r).next, (s.heap nb).size + (s.heap r).size⟩ } with
                heap := hupd
                  ({ s with
                    heap := hupd s.heap nb
                      ⟨(s.heap r).next, (s.heap nb).size + (s.heap r).size⟩ } : Mem).heap
                  c ⟨some nb,
                    (({ s with
                      heap := hupd s.heap nb
                        ⟨(s.heap r).next, (s.heap nb).size + (s.heap r).size⟩ } : Mem).heap
                      c).size⟩ } := by
            rw [hins0, hphase, ifb_link_some _ _ _ hcnb]
          have hreads : ∀ x, x ≠ nb → x ≠ c → (insert_free_block s nb fuel).heap x = s.heap x := by
            intro x hx1 hx2
            rw [hins]
            show hupd _ c _ x = _
            rw [hupd_other _ _ _ _ hx2]
            exact hupd_other _ _ _ _ hx1
          have hreadnb : (insert_free_block s nb fuel).heap nb =
              ⟨(s.heap r).next, (s.heap nb).size + (s.heap r).size⟩ := by
            rw [hins]
            show hupd _ c _ nb = _
            rw [hupd_other _ _ _ _ hcnb.symm]
            exact hupd_same _ _ _
          have hreadc : (insert_free_block s nb fuel).heap c =
              ⟨some nb, (s.heap c).size⟩ := by
            rw [hins]
            show hupd _ c _ c = _
            rw [hupd_same]
            show (⟨some nb,
              (hupd s.heap nb ⟨(s.heap r).next, (s.heap nb).size + (s.heap r).size⟩ c).size⟩ :
                mem_block_t) = _
            rw [hupd_other _ _ _ _ hcnb]
          have hsn : (insert_free_block s nb fuel).startNext = s.startNext := by
            rw [hins]
          obtain ⟨hrne', hrlast'⟩ : rest' ≠ [] ∧ rest'.getLast? = some e := by
            rcases getLast?_cons_cases rest' r e hRlast with ⟨hh, -⟩ | hh
            · exact absurd hh hre
            · exact hh
          refine ⟨⟨P0 ++ c :: nb :: rest', ?_, ?_, ?_, ?_⟩, ?_, ?_⟩
          · rw [chainb_eq_chainSeg, hsn]
            refine (chainSeg_append _ _ _ _ _).mpr ⟨some c, ?_, ?_⟩
            · rw [← hsn]
              refine hchainP0 _ (fun a ha => hreads a (hP0nb a ha) (hP0c a ha)) hsn
            · simp only [chainSeg, Bool.and_eq_true, beq_iff_eq]
              refine ⟨trivial, ?_, ?_⟩
              · show ((insert_free_block s nb fuel).heap c).next = some nb
                rw [hreadc]
              · show chainSeg _ ((insert_free_block s nb fuel).heap nb).next rest' none = true
                rw [hreadnb]
                show chainSeg _ (s.heap r).next rest' none = true
                rw [chainSeg_congr s _ rest' (s.heap r).next none]
                · exact hrest'
                · intro a ha
                  have := hcREST a (List.mem_cons_of_mem r ha)
                  exact hreads a (hnomem a (List.mem_cons_of_mem r ha)) (by omega)
          · refine chain'_append_of P0 (c :: nb :: rest') hchainP0' ?_ ?_
            · rw [List.chain'_cons]
              refine ⟨hcP, ?_⟩
              rw [List.chain'_cons']
              refine ⟨?_, hchainREST.tail⟩
              intro y hy
              have := hrlt y (List.mem_of_mem_head? hy)
              omega
            · intro p hp x hx
              have hpc := hP0lt p hp
              rcases List.mem_cons.mp hx with rfl | hx
              · exact hpc
              · rcases List.mem_cons.mp hx with rfl | hx
                · omega
                · have := hrlt x hx
                  omega
          · rw [List.getLast?_append, List.getLast?_cons_cons]
            cases hc2 : rest' with
            | nil => exact absurd hc2 hrne'
            | cons y ys =>
              rw [List.getLast?_cons_cons, ← hc2, hrlast']
              rfl
          · intro cc hw' hl'
            rw [hwalk] at hw'
            obtain rfl : c = cc := Option.some.inj (Option.some.inj hw')
            exact absurd hl' hl
          · exact hreads e (by omega) (by omega)
          · intro copt hw' hnl2 hadj'
            rw [hwalk] at hw'
            obtain rfl : some c = copt := Option.some.inj hw'
            constructor
            · intro h
              rw [hrc, hend] at h
              exact absurd (Option.some.inj h) hre
            · intro hne
              rw [hXr, hreadnb]
              exact ⟨rfl, rfl⟩
      · -- no right adjacency for the new block
        have hphase := ifb_phase2_noadj s (some c) nb
          (by rw [hrc]; exact fun hh => hadj (Option.some.inj hh))
        rw [hrc] at hphase
        have hins : insert_free_block s nb fuel =
            { { s with heap := hupd s.heap nb ⟨some r, (s.heap nb).size⟩ } with
              heap := hupd
                ({ s with heap := hupd s.heap nb ⟨some r, (s.heap nb).size⟩ } : Mem).heap
                c ⟨some nb,
                  (({ s with heap := hupd s.heap nb ⟨some r, (s.heap nb).size⟩ } : Mem).heap
                    c).size⟩ } := by
          rw [hins0, hphase, ifb_link_some _ _ _ hcnb]
        have hreads : ∀ x, x ≠ nb → x ≠ c → (insert_free_block s nb fuel).heap x = s.heap x := by
          intro x hx1 hx2
          rw [hins]
          show hupd _ c _ x = _
          rw [hupd_other _ _ _ _ hx2]
          exact hupd_other _ _ _ _ hx1
        have hreadnb : (insert_free_block s nb fuel).heap nb =
            ⟨some r, (s.heap nb).size⟩ := by
          rw [hins]
          show hupd _ c _ nb = _
          rw [hupd_other _ _ _ _ hcnb.symm]
          exact hupd_same _ _ _
        have hreadc : (insert_free_block s nb fuel).heap c =
            ⟨some nb, (s.heap c).size⟩ := by
          rw [hins]
          show hupd _ c _ c = _
          rw [hupd_same]
          show (⟨some nb, (hupd s.heap nb ⟨some r, (s.heap nb).size⟩ c).size⟩ :
              mem_block_t) = _
          rw [hupd_other _ _ _ _ hcnb]
        have hsn : (insert_free_block s nb fuel).startNext = s.startNext := by
          rw [hins]
        refine ⟨⟨P0 ++ c :: nb :: r :: rest', ?_, ?_, ?_, ?_⟩, ?_, ?_⟩
        · rw [chainb_eq_chainSeg, hsn]
          refine (chainSeg_append _ _ _ _ _).mpr ⟨some c, ?_, ?_⟩
          · rw [← hsn]
            refine hchainP0 _ (fun a ha => hreads a (hP0nb a ha) (hP0c a ha)) hsn
          · simp only [chainSeg, Bool.and_eq_true, beq_iff_eq]
            refine ⟨trivial, ?_, ?_, ?_⟩
            · show ((insert_free_block s nb fuel).heap c).next = some nb
              rw [hreadc]
            · show ((insert_free_block s nb fuel).heap nb).next = some r
              rw [hreadnb]
            · show chainSeg _ ((insert_free_block s nb fuel).heap r).next rest' none = true
              rw [hreads r (by omega) (by omega)]
              rw [chainSeg_congr s _ rest' (s.heap r).next none]
              · exact hrest'
              · intro a ha
                have := hcREST a (List.mem_cons_of_mem r ha)
                exact hreads a (hnomem a (List.mem_cons_of_mem r ha)) (by omega)
        · refine chain'_append_of P0 (c :: nb :: r :: rest') hchainP0' ?_ ?_
          · rw [List.chain'_cons]
            refine ⟨hcP, ?_⟩
            rw [List.chain'_cons]
            exact ⟨hnbr, hchainREST⟩
          · intro p hp x hx
            have hpc := hP0lt p hp
            rcases List.mem_cons.mp hx with rfl | hx
            · exact hpc
            · rcases List.mem_cons.mp hx with rfl | hx
              · omega
              · have := hcREST x hx
                omega
        · rw [List.getLast?_append, List.getLast?_cons_cons, List.getLast?_cons_cons,
            hRlast]
          rfl
        · intro cc hw' hl'
          rw [hwalk] at hw'
          obtain rfl : c = cc := Option.some.inj (Option.some.inj hw')
          exact absurd hl' hl
        · exact hreads e (by omega) (by omega)
        · intro copt hw' hnl2 hadj'
          rw [hwalk] at hw'
          obtain rfl : some c = copt := Option.some.inj hw'
          rw [hrc] at hadj'
          exact absurd (Option.some.inj hadj') hadj

/-- Witness for C6: inserting block 4096 back into the post-malloc
scenario state, whose free list is the lone sentinel 5112: the sentinel
header is untouched. -/
theorem insert_free_block_invariant_witness :
    (insert_free_block state1m 4096 10).heap 5112 = state1m.heap 5112 :=
  (insert_free_block_invariant state1m 4096 5112 10 [5112]
    (by decide) (List.chain'_singleton 5112) (by decide) (by decide)
    (by decide) (by decide) (by decide)).2.1
